import Mathlib

/-!
# The stream-reading Brainfuck interpreter `bfck`

A shallow embedding of `src/03-hard/0210-brainfuck/0210-brainfuck-stream-reader.cpp`.

* The input stream `is` is an immutable `List Char` together with a get position
  (`State.pos`): `is.get` reads the character at the position and advances it,
  `is.tellg()` is the position, `is.seekg(p)` sets it. A failed `is.get` leaves the
  stream in a failed state, which is what `main` tests after each call.
* `cell_t` is `unsigned char`: cell arithmetic is taken `% 256`.
* `clen_t` is `uint16_t`: every value assigned to `cellptr` is taken `% 65536`, and
  `cellptr` is compared with `lastcell` as an `int`.
* `lastcell` is an `int` (32 bits, two's complement): the conversion of `totalcells - 1`.
* `loops.back()` and `loops.pop_back()` on an empty vector, and a cell access outside
  the allocated array, are undefined behaviour: the pass is `Step.undef`.
* `loopskip` (an `int`) and stream positions are unbounded naturals: they are bounded by
  the number of symbols of the line being read.
* `std::cout` is the list of bytes a call has written so far (`State.out`).
* A call may not return; `run` and `bfck` take the number of passes they may make and
  return `none` when the loop is still running after that many.
-/

namespace Brainfuck

/-! ## Machine integers -/

/-- Conversion of an integer to a 32-bit two's complement `int`. -/
def toInt32 (x : Int) : Int := (x + 2147483648) % 4294967296 - 2147483648

/-- Conversion of an `int` to `clen_t` (`uint16_t`). -/
def toClen (x : Int) : Nat := (x % 65536).toNat

/-- Line 52: `const int lastcell = totalcells - 1;`. -/
def lastcell (totalcells : Nat) : Int := toInt32 ((totalcells : Int) - 1)

/-- Line 38: `const int TOTALCELLS = 8192;`. -/
def TOTALCELLS : Nat := 8192

/-! ## Interpreter state -/

/-- The local variables of `bfck`, the get position of the stream and the bytes
written to `std::cout`. `loops` is the vector in its own order: `back()` is the last
element. -/
structure State where
  pos : Nat
  cells : List Nat
  cellptr : Nat
  loops : List Nat
  loopskip : Nat
  out : List Nat
deriving DecidableEq, Repr

/-- What one evaluation of the `while` condition and body does. -/
inductive Step where
  | next (s : State)
  | eol (s : State)
  | eof (s : State)
  | undef
deriving DecidableEq, Repr

/-- How a call of `bfck` ends: `break` on a newline (stream still good), end of input
(`is.get` failed, the stream is in a failed state), or undefined behaviour. -/
inductive Result where
  | eol (s : State)
  | eof (s : State)
  | undef
deriving DecidableEq, Repr

/-- Lines 67-114: the body of the `while` loop for the symbol `codechar` just read (the
get position in `s` is already past it). -/
def body (lastcell : Int) (codechar : Char) (s : State) : Step :=
  if codechar = '\n' then Step.eol s
  else if s.loopskip ≠ 0 then
    if codechar = '[' then Step.next { s with loopskip := s.loopskip + 1 }
    else if codechar = ']' then Step.next { s with loopskip := s.loopskip - 1 }
    else Step.next s
  else if codechar = '+' then
    match s.cells[s.cellptr]? with
    | none => Step.undef
    | some v => Step.next { s with cells := s.cells.set s.cellptr ((v + 1) % 256) }
  else if codechar = '-' then
    match s.cells[s.cellptr]? with
    | none => Step.undef
    | some v => Step.next { s with cells := s.cells.set s.cellptr ((v + 255) % 256) }
  else if codechar = '>' then
    Step.next { s with cellptr :=
      if (s.cellptr : Int) = lastcell then 0 else toClen ((s.cellptr : Int) + 1) }
  else if codechar = '<' then
    Step.next { s with cellptr :=
      if s.cellptr = 0 then toClen lastcell else toClen ((s.cellptr : Int) - 1) }
  else if codechar = '[' then
    match s.cells[s.cellptr]? with
    | none => Step.undef
    | some v =>
      if v ≠ 0 then Step.next { s with loops := s.loops ++ [s.pos] }
      else Step.next { s with loopskip := s.loopskip + 1 }
  else if codechar = ']' then
    match s.cells[s.cellptr]? with
    | none => Step.undef
    | some v =>
      if v ≠ 0 then
        match s.loops.getLast? with
        | none => Step.undef
        | some p => Step.next { s with pos := p }
      else if s.loops = [] then Step.undef
      else Step.next { s with loops := s.loops.dropLast }
  else if codechar = '.' then
    match s.cells[s.cellptr]? with
    | none => Step.undef
    | some v => Step.next { s with out := s.out ++ [v] }
  else Step.next s

/-- Line 65 and the loop body: one pass through `while (is.get(codechar)) { ... }`.
When `is.get` fails the loop is left with the stream at end of input. -/
def step (is : List Char) (lastcell : Int) (s : State) : Step :=
  match is[s.pos]? with
  | none => Step.eof s
  | some codechar => body lastcell codechar { s with pos := s.pos + 1 }

/-- The first `n` passes through the loop, when none of them leaves it. -/
def steps (is : List Char) (lastcell : Int) : Nat → State → Option State
  | 0, s => some s
  | n + 1, s =>
    match step is lastcell s with
    | Step.next s' => steps is lastcell n s'
    | _ => none

/-- The `while` loop of `bfck`, with at most `fuel` passes; `none` when the loop is
still running after `fuel` passes. -/
def run (is : List Char) (lastcell : Int) : Nat → State → Option Result
  | 0, _ => none
  | fuel + 1, s =>
    match step is lastcell s with
    | Step.next s' => run is lastcell fuel s'
    | Step.eol s' => some (Result.eol s')
    | Step.eof s' => some (Result.eof s')
    | Step.undef => some Result.undef

/-- Lines 52-62: the state at the first evaluation of the loop condition, for a stream
positioned at `pos`: zeroed cells, `cellptr = 0`, empty `loops`, `loopskip = 0`. -/
def initState (totalcells pos : Nat) : State :=
  { pos := pos, cells := List.replicate totalcells 0, cellptr := 0, loops := [],
    loopskip := 0, out := [] }

/-- Lines 49-117: `bfck(is, totalcells)` called with the stream positioned at `pos`. -/
def bfck (fuel : Nat) (is : List Char) (totalcells pos : Nat) : Option Result :=
  run is (lastcell totalcells) fuel (initState totalcells pos)

/-- The bytes a finished call wrote, the final cells and the final pointer. -/
def Result.observe : Result → Option (List Nat × List Nat × Nat)
  | Result.eol s => some (s.out, s.cells, s.cellptr)
  | Result.eof s => some (s.out, s.cells, s.cellptr)
  | Result.undef => none

/-- The bytes a finished call wrote. -/
def Result.output : Result → Option (List Nat)
  | Result.eol s => some s.out
  | Result.eof s => some s.out
  | Result.undef => none

/-! ## Bracket structure of a symbol string -/

/-- Nesting depth after reading a symbol string that starts at depth `d`; `none` when
some `]` closes nothing. -/
def scanDepth : Nat → List Char → Option Nat
  | d, [] => some d
  | d, c :: cs =>
    if c = '[' then scanDepth (d + 1) cs
    else if c = ']' then (if d = 0 then none else scanDepth (d - 1) cs)
    else scanDepth d cs

/-- A symbol string is bracket-balanced. -/
def balanced (B : List Char) : Bool := scanDepth 0 B == some 0

/-! ## The sample programs of the claims -/

/-- The doubling program as a symbol list. -/
def doublingProgram : List Char := "++[>++<-]>.".toList

/-- State at the head of the doubling loop when `lastcell = 0`: everything happens in cell 0. -/
def oneCellHead (tl : List Nat) (v : Nat) : State :=
  { pos := 3, cells := v :: tl, cellptr := 0, loops := [3], loopskip := 0, out := [] }

/-- The program of C3: `k` symbols `+`, then `[-]`, then `.`. -/
def clearingProgram (k : Nat) : List Char := List.replicate k '+' ++ ['[', '-', ']', '.']

/-- State at the head of the body of `[-]`, with `v` in cell 0. -/
def clearHead (k : Nat) (tl : List Nat) (v : Nat) : State :=
  { pos := k + 1, cells := v :: tl, cellptr := 0, loops := [k + 1], loopskip := 0, out := [] }

/-- The pass about to be made executes `case '.'`: the symbol read is `.` and the
interpreter is in normal mode. -/
def executesDot (is : List Char) (s : State) : Bool :=
  is[s.pos]? == some '.' && s.loopskip == 0

/-- Number of passes, among the first `n` from `s`, that execute `case '.'`. -/
def dotCount (is : List Char) (lastcell : Int) : Nat → State → Nat
  | 0, _ => 0
  | n + 1, s =>
    (if executesDot is s then 1 else 0) +
      match step is lastcell s with
      | Step.next s' => dotCount is lastcell n s'
      | _ => 0

/-- The program of C6: `k` symbols `+`, then `.`. -/
def printProgram (k : Nat) : List Char := List.replicate k '+' ++ ['.']

/-! ## Renaming stream positions -/

/-- The state with its stream positions (cursor, loop stack entries) renamed by `g`. -/
def State.mapPos (g : Nat → Nat) (s : State) : State :=
  { s with pos := g s.pos, loops := s.loops.map g }

/-- The outcome of a pass with its stream positions renamed by `g`. -/
def Step.mapPos (g : Nat → Nat) : Step → Step
  | Step.next s => Step.next (s.mapPos g)
  | Step.eol s => Step.eol (s.mapPos g)
  | Step.eof s => Step.eof (s.mapPos g)
  | Step.undef => Step.undef

/-- The result of a call with its stream positions renamed by `g`. -/
def Result.mapPos (g : Nat → Nat) : Result → Result
  | Result.eol s => Result.eol (s.mapPos g)
  | Result.eof s => Result.eof (s.mapPos g)
  | Result.undef => Result.undef

/-- The symbols the interpreter reacts to: the seven instructions and the newline. -/
def recognized (c : Char) : Bool :=
  c == '+' || c == '-' || c == '<' || c == '>' || c == '[' || c == ']' || c == '.' ||
    c == '\n'

/-- A stream with every symbol other than the instructions and the newline deleted. -/
def stripped (P : List Char) : List Char := P.filter recognized

/-- The position in `stripped P` that corresponds to position `p` of `P`. -/
def strippedPos (P : List Char) (p : Nat) : Nat := ((P.take p).filter recognized).length

/-! ## The line being read -/

/-- The cursor and every stored loop position lie between `a` and `b`. -/
def inWindow (a b : Nat) (s : State) : Prop :=
  a ≤ s.pos ∧ s.pos ≤ b ∧ ∀ q, q ∈ s.loops → a ≤ q ∧ q ≤ b

instance (a b : Nat) (s : State) : Decidable (inWindow a b s) := by
  unfold inWindow
  infer_instance

/-! ## The driver -/

/-- Lines 123-124, `while (bfck(stream)) std::cout << std::endl;` with the default
`totalcells = TOTALCELLS`: the cursor at which the driver's call number `k` of `bfck`
starts (`k = 0` is the first call). The driver gets that far only when every earlier call
returned with the stream still good, that is, ended at a newline; each call is given
`fuel` passes. -/
def callStart (fuel : Nat) (is : List Char) : Nat → Option Nat
  | 0 => some 0
  | k + 1 =>
    match callStart fuel is k with
    | none => none
    | some p =>
      match bfck fuel is TOTALCELLS p with
      | some (Result.eol st) => some st.pos
      | _ => none

/-- What the driver's call number `k` of `bfck` returns. -/
def call (fuel : Nat) (is : List Char) (k : Nat) : Option Result :=
  (callStart fuel is k).bind (bfck fuel is TOTALCELLS)

/-- The program of C16, followed by anything. -/
def foreverProgram (tail : List Char) : List Char := '+' :: '[' :: ']' :: tail

/-- Lines 120-127, `main`: the bytes the whole program writes to `std::cout`, for the
file contents `is`. `while (bfck(stream)) std::cout << std::endl;` calls `bfck` with the
default `totalcells = TOTALCELLS` where the previous call stopped, and writes a newline
(byte 10) after every call that returns with the stream still good, that is, after every
call that ended at a newline; a call that ended at end of input leaves the stream failed
and ends the loop. Each call is given `fuel` passes and the loop at most `calls` calls;
`none` when a call has not returned by then or is undefined. -/
def mainLoop (fuel : Nat) (is : List Char) : Nat → Nat → Option (List Nat)
  | 0, _ => none
  | calls + 1, pos =>
    match bfck fuel is TOTALCELLS pos with
    | some (Result.eol st) =>
      (mainLoop fuel is calls st.pos).map (fun rest => st.out ++ 10 :: rest)
    | some (Result.eof st) => some st.out
    | _ => none

/-- Lines 120-127, `main`, on the file contents `is`: every call but the last consumes at
least one symbol, so `is.length + 1` calls are enough. -/
def main (fuel : Nat) (is : List Char) : Option (List Nat) :=
  mainLoop fuel is (is.length + 1) 0

/-- The text cut at its newlines: the lines that are ended by a newline, in order, and
what follows the last newline (the final line, ended by the end of input; empty when the
text ends in a newline). -/
def splitLines : List Char → List (List Char) × List Char
  | [] => ([], [])
  | c :: cs =>
    if c = '\n' then ([] :: (splitLines cs).1, (splitLines cs).2)
    else
      match (splitLines cs).1 with
      | [] => ([], c :: (splitLines cs).2)
      | l :: ls => ((c :: l) :: ls, (splitLines cs).2)

/-- The bytes the program `P` writes when it is run alone from a fresh state with the
driver's tape size. -/
def programOutput (fuel : Nat) (P : List Char) : Option (List Nat) :=
  (bfck fuel P TOTALCELLS 0).bind Result.output

/-- The output described by the amended C11: for each line ended by a newline, in
order, the bytes of that program followed by one newline byte; then the bytes of the
final line with nothing after them. -/
def describedOutput (fuel : Nat) : List (List Char) → List Char → Option (List Nat)
  | [], last => programOutput fuel last
  | l :: ls, last =>
    match programOutput fuel l, describedOutput fuel ls last with
    | some o, some os => some (o ++ 10 :: os)
    | _, _ => none

/-! ## The open loops around a position -/

/-- The loops of the line `P` that are open at position `p`, outermost first, each given
by the position immediately after its `[`: the `[` among the first `p` symbols that no
later `]` among them has closed. -/
def enclosing (P : List Char) : Nat → List Nat
  | 0 => []
  | p + 1 =>
    if P[p]? = some '[' then enclosing P p ++ [p + 1]
    else if P[p]? = some ']' then (enclosing P p).dropLast
    else enclosing P p

/-- The loop stack of a state on the line `P` follows the open loops around the cursor:
in normal mode it is their list, in skip mode the list of those that were open when the
skipping began. -/
def stackInv (P : List Char) (s : State) : Prop :=
  s.pos ≤ P.length ∧ s.loopskip ≤ (enclosing P s.pos).length ∧
  s.loops = (enclosing P s.pos).take ((enclosing P s.pos).length - s.loopskip)

instance (P : List Char) (s : State) : Decidable (stackInv P s) := by
  unfold stackInv
  infer_instance

/-! ## The structured reference semantics

The semantics C17 compares `bfck` with, written from the words of the claim: a program
is a tree, `[` body `]` means "while the current cell is not 0 do body", cells count
modulo 256, the pointer moves modulo the tape size, `.` appends the current cell to the
output. -/

/-- A program as a tree: a sequence of plain symbols and of loops. -/
inductive Prog where
  | done : Prog
  | sym (c : Char) (rest : Prog) : Prog
  | loop (body : Prog) (rest : Prog) : Prog
deriving DecidableEq, Repr

/-- The text of a program tree: a loop is written `[` body `]`. -/
def Prog.text : Prog → List Char
  | Prog.done => []
  | Prog.sym c rest => c :: rest.text
  | Prog.loop b rest => '[' :: (b.text ++ ']' :: rest.text)

/-- The symbols of the tree are no brackets and no newlines: the brackets of the text
are exactly those of its loops. -/
def Prog.plain : Prog → Bool
  | Prog.done => true
  | Prog.sym c rest => c != '[' && c != ']' && c != '\n' && rest.plain
  | Prog.loop b rest => b.plain && rest.plain

/-- The state of the reference semantics: tape, pointer, output. -/
structure Machine where
  cells : List Nat
  ptr : Nat
  out : List Nat
deriving DecidableEq, Repr

/-- The all-zero tape of `N` cells with the pointer at 0 and no output. -/
def Machine.fresh (N : Nat) : Machine :=
  { cells := List.replicate N 0, ptr := 0, out := [] }

/-- Reference effect of one plain symbol on a tape of `N` cells: cells modulo 256,
pointer modulo `N`, `.` appends the current cell; any other symbol does nothing. -/
def refSym (N : Nat) (c : Char) (m : Machine) : Machine :=
  if c = '+' then { m with cells := m.cells.set m.ptr ((m.cells.getD m.ptr 0 + 1) % 256) }
  else if c = '-' then
    { m with cells := m.cells.set m.ptr ((m.cells.getD m.ptr 0 + 255) % 256) }
  else if c = '>' then { m with ptr := (m.ptr + 1) % N }
  else if c = '<' then { m with ptr := (m.ptr + N - 1) % N }
  else if c = '.' then { m with out := m.out ++ [m.cells.getD m.ptr 0] }
  else m

/-- Reference execution of a program tree with at most `fuel` nested steps; `none`
when that is not enough. A loop runs its body while the current cell is not 0. -/
def refExec (N : Nat) : Nat → Prog → Machine → Option Machine
  | 0, _, _ => none
  | _ + 1, Prog.done, m => some m
  | fuel + 1, Prog.sym c rest, m => refExec N fuel rest (refSym N c m)
  | fuel + 1, Prog.loop b rest, m =>
    if m.cells.getD m.ptr 0 ≠ 0 then
      (refExec N fuel b m).bind (fun m' => refExec N fuel (Prog.loop b rest) m')
    else refExec N fuel rest m

/-- The interpreter state in normal mode that holds the tape, pointer and output of a
reference state, with the cursor at `pos` and the loop stack `loops`. -/
def Machine.state (m : Machine) (pos : Nat) (loops : List Nat) : State :=
  { pos := pos, cells := m.cells, cellptr := m.ptr, loops := loops, loopskip := 0,
    out := m.out }

end Brainfuck

namespace BitPositions

/-! ## The bit-positions program

A shallow embedding of lines 52-57 of
`src/01-easy/0019-bit-positions/0019-bit-positions.cpp`: what the program does with one
record `n, p1, p2` of its input. A record is given by the three integers written in it.
`int n, p1, p2` are 32-bit two's complement values: `stream >> n >> p1 >> p2` fails on a
written integer that an `int` cannot hold, and the `while` loop then ends without
printing. `>>` on a non-negative `int` is the shift, defined for a shift count in
`[0, 32)`. -/

/-- A C++ `int`: a 32-bit two's complement value. -/
structure CInt where
  val : Int
  lo : -2147483648 ≤ val
  hi : val ≤ 2147483647

/-- Line 53, `stream >> n`: extraction of a written integer into an `int`. It fails,
leaving the stream failed, when the integer is not representable. -/
def extract (x : Int) : Option CInt :=
  if h : -2147483648 ≤ x ∧ x ≤ 2147483647 then some ⟨x, h.1, h.2⟩ else none

/-- What the program does with one record: it prints a word, or the extraction of line
53 fails and the loop ends with nothing printed, or a shift is undefined. -/
inductive Answer where
  | printed (word : String)
  | nothing
  | undef
deriving DecidableEq, Repr

/-- Lines 54-55: `n >> (p - 1) & 1`, that is `(n >> (p - 1)) & 1`, on `int` operands;
`none` when the shift count is negative or at least 32 (undefined behaviour). -/
def bitAt (n p : CInt) : Option Int :=
  if 0 ≤ p.val - 1 ∧ p.val - 1 < 32 then some (Int.land (n.val >>> (p.val - 1).toNat) 1)
  else none

/-- Lines 53-56, one pass of `while(stream >> n >> p1 >> p2)` on the record in which the
integers `n`, `p1`, `p2` are written: when all three are extracted, the word printed is
`b1 ^ b2 ? "false" : "true"`. -/
def bitPositions (n p1 p2 : Int) : Answer :=
  match extract n, extract p1, extract p2 with
  | some a, some q1, some q2 =>
    match bitAt a q1, bitAt a q2 with
    | some b1, some b2 => Answer.printed (if Int.xor b1 b2 ≠ 0 then "false" else "true")
    | _, _ => Answer.undef
  | _, _, _ => Answer.nothing

end BitPositions

namespace Brainfuck

/-! ## Running several passes -/

/-- Reading a stream `pre ++ l` at offset `i` past `pre` reads `l` at `i`. -/
theorem getElem?_append_add (pre l : List Char) (i : Nat) :
    (pre ++ l)[pre.length + i]? = l[i]? := by
  rw [List.getElem?_append_right (by omega)]
  simp

theorem steps_add (is : List Char) (lc : Int) (m n : Nat) (s : State) :
    steps is lc (m + n) s = (steps is lc m s).bind (steps is lc n) := by
  induction m generalizing s with
  | zero => simp [steps]
  | succ m ih =>
    rw [Nat.succ_add]
    simp only [steps]
    cases h : step is lc s <;> simp [ih]

theorem steps_succ_last (is : List Char) (lc : Int) (n : Nat) (s t u : State)
    (h1 : steps is lc n s = some t) (h2 : step is lc t = Step.next u) :
    steps is lc (n + 1) s = some u := by
  rw [steps_add, h1]
  simp [steps, h2]

/-- A run that stays in the loop for `n` passes continues from the state reached. -/
theorem run_of_steps (is : List Char) (lc : Int) (n m : Nat) (s t : State)
    (h : steps is lc n s = some t) : run is lc (n + m) s = run is lc m t := by
  induction n generalizing s with
  | zero =>
    simp only [steps, Option.some.injEq] at h
    subst h
    simp
  | succ n ih =>
    rw [Nat.succ_add]
    simp only [steps] at h
    simp only [run]
    cases hs : step is lc s with
    | next s' =>
      rw [hs] at h
      exact ih s' h
    | eol s' => rw [hs] at h; simp at h
    | eof s' => rw [hs] at h; simp at h
    | undef => rw [hs] at h; simp at h

/-- More fuel does not change the result of a run that has ended. -/
theorem run_mono (is : List Char) (lc : Int) (n k : Nat) (s : State) (r : Result)
    (h : run is lc n s = some r) : run is lc (n + k) s = some r := by
  induction n generalizing s with
  | zero => simp [run] at h
  | succ n ih =>
    rw [Nat.succ_add]
    simp only [run] at h ⊢
    cases hs : step is lc s with
    | next s' =>
      rw [hs] at h
      exact ih s' h
    | eol s' => rw [hs] at h; simpa using h
    | eof s' => rw [hs] at h; simpa using h
    | undef => rw [hs] at h; simpa using h

/-- In skip mode a symbol other than the newline only moves the cursor and the skip depth. -/
theorem step_skip (is : List Char) (lc : Int) (s : State) (c : Char)
    (hc : is[s.pos]? = some c) (hnl : c ≠ '\n') (hk : s.loopskip ≠ 0) :
    step is lc s = Step.next { s with
      pos := s.pos + 1,
      loopskip := if c = '[' then s.loopskip + 1 else if c = ']' then s.loopskip - 1
                  else s.loopskip } := by
  unfold step body
  simp only [hc]
  simp only [if_neg hnl, hk, ne_eq, not_false_eq_true, if_true]
  split_ifs <;> rfl

theorem scanDepth_append (d : Nat) (B1 B2 : List Char) :
    scanDepth d (B1 ++ B2) = (scanDepth d B1).bind (fun e => scanDepth e B2) := by
  induction B1 generalizing d with
  | nil => simp [scanDepth]
  | cons c cs ih =>
    simp only [List.cons_append, scanDepth]
    split_ifs <;> simp [ih]

theorem scanDepth_take (d d' : Nat) (B : List Char) (j : Nat)
    (h : scanDepth d B = some d') : ∃ e, scanDepth d (B.take j) = some e := by
  have h2 := scanDepth_append d (B.take j) (B.drop j)
  rw [List.take_append_drop, h] at h2
  cases h3 : scanDepth d (B.take j) with
  | none => simp [h3] at h2
  | some e => exact ⟨e, rfl⟩

/-- Skip mode over a symbol string without newline in which no `]` closes more than was
opened inside the string: only the cursor and the skip depth move. -/
theorem steps_skip_scan (is : List Char) (lc : Int) (B : List Char) :
    ∀ (d d' k : Nat) (s : State), scanDepth d B = some d' → '\n' ∉ B →
      (∀ i, i < B.length → is[s.pos + i]? = B[i]?) → s.loopskip = k + 1 + d →
      steps is lc B.length s =
        some { s with pos := s.pos + B.length, loopskip := k + 1 + d' } := by
  induction B with
  | nil =>
    intro d d' k s h _ _ hk
    simp [scanDepth] at h
    subst h
    simp [steps, ← hk]
  | cons c cs ih =>
    intro d d' k s h hnl hB hk
    have hc : is[s.pos]? = some c := by simpa using hB 0 (by simp)
    have hcnl : c ≠ '\n' := by
      intro e; apply hnl; simp [e]
    have hnl2 : '\n' ∉ cs := by
      intro e; apply hnl; simp [e]
    have hB2 : ∀ t : State, t.pos = s.pos + 1 → ∀ i, i < cs.length → is[t.pos + i]? = cs[i]? := by
      intro t ht i hi
      have := hB (i + 1) (by simpa using hi)
      rw [ht]
      simpa [Nat.add_assoc, Nat.add_comm 1 i] using this
    simp only [List.length_cons, steps]
    rw [step_skip is lc s c hc hcnl (by omega)]
    simp only
    simp only [scanDepth] at h
    by_cases h1 : c = '['
    · simp only [h1, if_true] at h ⊢
      rw [ih (d + 1) d' k _ h hnl2 (hB2 _ rfl) (by simp; omega)]
      simp; omega
    · by_cases h2 : c = ']'
      · have h12 : ¬ (']' = '[') := by decide
        simp only [h2, h12, if_true, if_false] at h ⊢
        by_cases hd : d = 0
        · simp [hd] at h
        · simp only [hd, if_false] at h
          rw [ih (d - 1) d' k _ h hnl2 (hB2 _ rfl) (by simp; omega)]
          simp; omega
      · simp only [h1, h2, if_false] at h ⊢
        rw [ih d d' k _ h hnl2 (hB2 _ rfl) (by simp; omega)]
        simp; omega

/-- A `+` in normal mode increments the current cell modulo 256 and nothing else. -/
theorem step_plus (is : List Char) (lc : Int) (s : State) (v : Nat)
    (hc : is[s.pos]? = some '+') (hk : s.loopskip = 0) (hv : s.cells[s.cellptr]? = some v) :
    step is lc s = Step.next { s with
      pos := s.pos + 1, cells := s.cells.set s.cellptr ((v + 1) % 256) } := by
  unfold step body
  simp [hc, hk, hv]

/-- A `-` in normal mode decrements the current cell modulo 256 and nothing else. -/
theorem step_minus (is : List Char) (lc : Int) (s : State) (v : Nat)
    (hc : is[s.pos]? = some '-') (hk : s.loopskip = 0) (hv : s.cells[s.cellptr]? = some v) :
    step is lc s = Step.next { s with
      pos := s.pos + 1, cells := s.cells.set s.cellptr ((v + 255) % 256) } := by
  unfold step body
  simp [hc, hk, hv]

theorem getElem?_set_self_of_some (l : List Nat) (i v w : Nat) (h : l[i]? = some v) :
    (l.set i w)[i]? = some w := by
  have hi : i < l.length := by
    by_contra hn
    rw [List.getElem?_eq_none (by omega)] at h
    simp at h
  simp [List.getElem?_set, hi]

/-- A row of `j` symbols `+` in normal mode adds `j` to the current cell modulo 256. -/
theorem steps_plus (is : List Char) (lc : Int) (j : Nat) :
    ∀ (s : State) (v : Nat), s.loopskip = 0 → s.cells[s.cellptr]? = some v → v < 256 →
      (∀ i, i < j → is[s.pos + i]? = some '+') →
      steps is lc j s = some { s with
        pos := s.pos + j, cells := s.cells.set s.cellptr ((v + j) % 256) } := by
  induction j with
  | zero =>
    intro s v _ hv hlt _
    have : s.cells.set s.cellptr v = s.cells := by
      apply List.ext_getElem?
      intro i
      by_cases hi : s.cellptr = i
      · subst hi; rw [getElem?_set_self_of_some _ _ _ _ hv, hv]
      · simp [List.getElem?_set, hi]
    simp [steps, Nat.mod_eq_of_lt hlt, this]
  | succ j ih =>
    intro s v hk hv hlt hB
    have hc : is[s.pos]? = some '+' := by simpa using hB 0 (by omega)
    simp only [steps]
    rw [step_plus is lc s v hc hk hv]
    simp only
    rw [ih { s with pos := s.pos + 1, cells := s.cells.set s.cellptr ((v + 1) % 256) }
      ((v + 1) % 256) hk (getElem?_set_self_of_some _ _ _ _ hv) (Nat.mod_lt _ (by norm_num))]
    · have e : ((v + 1) % 256 + j) % 256 = (v + (j + 1)) % 256 := by omega
      simp [List.set_set, e, Nat.add_assoc, Nat.add_comm 1 j]
    · intro i hi
      have := hB (i + 1) (by omega)
      simpa [Nat.add_assoc, Nat.add_comm 1 i] using this

/-- A `>` in normal mode only moves the pointer (and the cursor). -/
theorem step_right (is : List Char) (lc : Int) (s : State)
    (hc : is[s.pos]? = some '>') (hk : s.loopskip = 0) :
    step is lc s = Step.next { s with
      pos := s.pos + 1,
      cellptr := if (s.cellptr : Int) = lc then 0 else toClen ((s.cellptr : Int) + 1) } := by
  unfold step body
  simp [hc, hk]

/-- A `<` in normal mode only moves the pointer (and the cursor). -/
theorem step_left (is : List Char) (lc : Int) (s : State)
    (hc : is[s.pos]? = some '<') (hk : s.loopskip = 0) :
    step is lc s = Step.next { s with
      pos := s.pos + 1,
      cellptr := if s.cellptr = 0 then toClen lc else toClen ((s.cellptr : Int) - 1) } := by
  unfold step body
  simp [hc, hk]

/-- Up to 65536 cells `lastcell` is `totalcells - 1` exactly. -/
theorem lastcell_small (N : Nat) (hN : 0 < N) (hmax : N ≤ 65536) :
    lastcell N = ((N - 1 : Nat) : Int) := by
  unfold lastcell toInt32
  omega

/-- A row of `j` symbols `>` in normal mode applies the pointer update of line 89 `j`
times and changes nothing else. -/
theorem steps_right (is : List Char) (lc : Int) (j : Nat) :
    ∀ s : State, s.loopskip = 0 → (∀ i, i < j → is[s.pos + i]? = some '>') →
      steps is lc j s = some { s with
        pos := s.pos + j,
        cellptr := (fun q : Nat => if (q : Int) = lc then 0 else toClen ((q : Int) + 1))^[j]
          s.cellptr } := by
  induction j with
  | zero => intro s _ _; simp [steps]
  | succ j ih =>
    intro s hk hB
    have hc : is[s.pos]? = some '>' := by simpa using hB 0 (by omega)
    simp only [steps]
    rw [step_right is lc s hc hk]
    simp only
    rw [ih { s with pos := s.pos + 1,
                    cellptr := if (s.cellptr : Int) = lc then 0
                               else toClen ((s.cellptr : Int) + 1) } hk]
    · simp [Nat.add_assoc, Nat.add_comm 1 j]
    · intro i hi
      have := hB (i + 1) (by omega)
      simpa [Nat.add_assoc, Nat.add_comm 1 i] using this

/-- A row of `j` symbols `<` in normal mode applies the pointer update of line 93 `j`
times and changes nothing else. -/
theorem steps_left (is : List Char) (lc : Int) (j : Nat) :
    ∀ s : State, s.loopskip = 0 → (∀ i, i < j → is[s.pos + i]? = some '<') →
      steps is lc j s = some { s with
        pos := s.pos + j,
        cellptr := (fun q : Nat => if q = 0 then toClen lc else toClen ((q : Int) - 1))^[j]
          s.cellptr } := by
  induction j with
  | zero => intro s _ _; simp [steps]
  | succ j ih =>
    intro s hk hB
    have hc : is[s.pos]? = some '<' := by simpa using hB 0 (by omega)
    simp only [steps]
    rw [step_left is lc s hc hk]
    simp only
    rw [ih { s with pos := s.pos + 1,
                    cellptr := if s.cellptr = 0 then toClen lc
                               else toClen ((s.cellptr : Int) - 1) } hk]
    · simp [Nat.add_assoc, Nat.add_comm 1 j]
    · intro i hi
      have := hB (i + 1) (by omega)
      simpa [Nat.add_assoc, Nat.add_comm 1 i] using this

/-- Reading inside a row of equal symbols. -/
theorem getElem?_replicate_lt (c : Char) (n i : Nat) (hi : i < n) :
    (List.replicate n c)[i]? = some c := by
  simp [hi]

/-- Reading inside a row of equal symbols placed after `pre`. -/
theorem getElem?_row (pre post : List Char) (c : Char) (n i : Nat) (hi : i < n) :
    (pre ++ (List.replicate n c ++ post))[pre.length + i]? = some c := by
  rw [getElem?_append_add, List.getElem?_append_left (by simpa using hi)]
  simp [hi]

/-- Iterating a map that adds `a` modulo `M` on `[0, M)`. -/
theorem iterate_add_mod (M a : Nat) (f : Nat → Nat)
    (hf : ∀ q, q < M → f q = (q + a) % M) (j p : Nat) (hp : p < M) :
    f^[j] p = (p + a * j) % M := by
  induction j generalizing p with
  | zero => simp [Nat.mod_eq_of_lt hp]
  | succ j ih =>
    rw [Function.iterate_succ_apply, hf p hp, ih _ (Nat.mod_lt _ (by omega)), Nat.mod_add_mod]
    congr 1
    ring

/-! ## Case analysis on the symbol read -/

/-- A symbol is the newline, one of the seven instructions, or none of them. -/
theorem sym_cases (c : Char) :
    c = '\n' ∨ c = '+' ∨ c = '-' ∨ c = '>' ∨ c = '<' ∨ c = '[' ∨ c = ']' ∨ c = '.' ∨
    (c ≠ '\n' ∧ c ≠ '+' ∧ c ≠ '-' ∧ c ≠ '>' ∧ c ≠ '<' ∧ c ≠ '[' ∧ c ≠ ']' ∧ c ≠ '.') := by
  tauto

/-- The loop body does not depend on how stream positions are named. -/
theorem body_mapPos (g : Nat → Nat) (lc : Int) (c : Char) (s : State) :
    body lc c (s.mapPos g) = (body lc c s).mapPos g := by
  by_cases hk : s.loopskip = 0 <;> cases hv : s.cells[s.cellptr]? <;>
    cases hl : s.loops.getLast? <;>
    rcases sym_cases c with rfl | rfl | rfl | rfl | rfl | rfl | rfl | rfl |
      ⟨h1, h2, h3, h4, h5, h6, h7, h8⟩ <;>
    simp [body, State.mapPos, Step.mapPos, hk, hv, hl, *] <;>
    split_ifs <;> simp [Step.mapPos, State.mapPos]

/-- A symbol that is neither the newline nor an instruction changes nothing. -/
theorem body_noop (lc : Int) (c : Char) (s : State)
    (h : c ≠ '\n' ∧ c ≠ '+' ∧ c ≠ '-' ∧ c ≠ '>' ∧ c ≠ '<' ∧ c ≠ '[' ∧ c ≠ ']' ∧ c ≠ '.') :
    body lc c s = Step.next s := by
  obtain ⟨h1, h2, h3, h4, h5, h6, h7, h8⟩ := h
  by_cases hk : s.loopskip = 0 <;> simp [body, hk, *]

/-- The newline leaves the loop, in normal mode and in skip mode alike. -/
theorem body_newline (lc : Int) (s : State) : body lc '\n' s = Step.eol s := by
  simp [body]

/-- What a pass that stays in the loop can do to the cursor, the loop stack and the
output: the cursor stays or moves to a stored position, the loop stack only gains the
cursor, the output grows by one byte exactly on a `.` in normal mode. -/
theorem body_next_inv (lc : Int) (c : Char) (s t : State) (h : body lc c s = Step.next t) :
    c ≠ '\n' ∧ (t.pos = s.pos ∨ t.pos ∈ s.loops) ∧
    (∀ q, q ∈ t.loops → q ∈ s.loops ∨ q = s.pos) ∧
    t.out.length = s.out.length + (if c = '.' ∧ s.loopskip = 0 then 1 else 0) := by
  by_cases hk : s.loopskip = 0 <;> cases hv : s.cells[s.cellptr]? <;>
    cases hl : s.loops.getLast? <;>
    rcases sym_cases c with rfl | rfl | rfl | rfl | rfl | rfl | rfl | rfl |
      ⟨h1, h2, h3, h4, h5, h6, h7, h8⟩ <;>
    simp [body, hk, hv, hl, *] at h <;>
    (try split_ifs at h) <;>
    (try simp at h) <;>
    subst h <;>
    (try simp_all) <;>
    first
      | exact Or.inr (List.mem_of_getLast?_eq_some hl)
      | exact fun q hq => Or.inl (List.mem_of_mem_dropLast hq)

/-- A pass leaves the loop through `break` only on the newline, and changes nothing
then; the body never reports end of input. -/
theorem body_leave_inv (lc : Int) (c : Char) (s t : State) :
    (body lc c s = Step.eol t → c = '\n' ∧ t = s) ∧ body lc c s ≠ Step.eof t := by
  by_cases hk : s.loopskip = 0 <;> cases hv : s.cells[s.cellptr]? <;>
    cases hl : s.loops.getLast? <;>
    rcases sym_cases c with rfl | rfl | rfl | rfl | rfl | rfl | rfl | rfl |
      ⟨h1, h2, h3, h4, h5, h6, h7, h8⟩ <;>
    simp [body, hk, hv, hl, *] <;>
    (try split_ifs) <;> (try simp) <;>
    exact fun e => e.symm

/-! ## Runs stay inside the line being read -/

/-- The newline leaves the loop with only the cursor advanced, whatever the mode. -/
theorem step_newline (is : List Char) (lc : Int) (s : State) (h : is[s.pos]? = some '\n') :
    step is lc s = Step.eol { s with pos := s.pos + 1 } := by
  unfold step
  rw [h]
  exact body_newline lc _

/-- With the first newline at or after `a` at position `b`: a pass from a state inside
the window `[a, b]` stays inside it, or leaves the loop with the cursor at `b + 1`, and
never meets the end of input. -/
theorem step_window (is : List Char) (lc : Int) (a b : Nat) (s t : State)
    (hb : is[b]? = some '\n') (hline : ∀ p, a ≤ p → p < b → is[p]? ≠ some '\n')
    (hw : inWindow a b s) :
    (step is lc s = Step.next t → inWindow a b t) ∧
    (step is lc s = Step.eol t → t = { s with pos := b + 1 }) ∧
    step is lc s ≠ Step.eof t := by
  obtain ⟨h1, h2, h3⟩ := hw
  have hlen : b < is.length := by
    by_contra hn
    rw [List.getElem?_eq_none (by omega)] at hb
    simp at hb
  unfold step
  cases hc : is[s.pos]? with
  | none =>
    exfalso
    rw [List.getElem?_eq_getElem (by omega)] at hc
    simp at hc
  | some c =>
    simp only
    refine ⟨?_, ?_, (body_leave_inv lc c _ t).2⟩
    · intro h
      obtain ⟨hnl, hpos, hloops, -⟩ := body_next_inv lc c _ t h
      have hlt : s.pos < b := by
        rcases Nat.lt_or_ge s.pos b with h | h
        · exact h
        · have : s.pos = b := by omega
          rw [this, hb] at hc
          exact absurd (Option.some.inj hc).symm hnl
      simp only at hpos hloops
      refine ⟨?_, ?_, ?_⟩
      · rcases hpos with e | e
        · omega
        · exact (h3 _ e).1
      · rcases hpos with e | e
        · omega
        · exact (h3 _ e).2
      · intro q hq
        rcases hloops q hq with e | e
        · exact h3 q e
        · omega
    · intro h
      obtain ⟨hnl, ht⟩ := (body_leave_inv lc c _ t).1 h
      subst hnl
      have : s.pos = b := by
        rcases Nat.lt_or_ge s.pos b with h | h
        · exact absurd hc (hline s.pos h1 h)
        · omega
      rw [ht, this]

/-- A call whose states start inside the window ends, if it ends in a defined way, by
reading the newline at `b`. -/
theorem run_window (is : List Char) (lc : Int) (a b : Nat)
    (hb : is[b]? = some '\n') (hline : ∀ p, a ≤ p → p < b → is[p]? ≠ some '\n') (n : Nat) :
    ∀ (s : State) (r : Result), inWindow a b s → run is lc n s = some r →
      r ≠ Result.undef → ∃ st, r = Result.eol st ∧ st.pos = b + 1 := by
  induction n with
  | zero => intro s r _ h; simp [run] at h
  | succ n ih =>
    intro s r hw h hr
    simp only [run] at h
    cases hs : step is lc s with
    | next u =>
      rw [hs] at h
      exact ih u r ((step_window is lc a b s u hb hline hw).1 hs) h hr
    | eol u =>
      rw [hs] at h
      simp only [Option.some.injEq] at h
      subst h
      have := (step_window is lc a b s u hb hline hw).2.1 hs
      exact ⟨u, rfl, by rw [this]⟩
    | eof u => exact absurd hs (step_window is lc a b s u hb hline hw).2.2
    | undef =>
      rw [hs] at h
      simp only [Option.some.injEq] at h
      exact absurd h.symm hr

/-- Two streams that agree on the window give the same runs from a state inside it. -/
theorem run_agree (is1 is2 : List Char) (lc : Int) (a b : Nat)
    (hb : is1[b]? = some '\n') (hline : ∀ p, a ≤ p → p < b → is1[p]? ≠ some '\n')
    (hag : ∀ p, a ≤ p → p ≤ b → is1[p]? = is2[p]?) (n : Nat) :
    ∀ s : State, inWindow a b s → run is1 lc n s = run is2 lc n s := by
  induction n with
  | zero => intro s _; rfl
  | succ n ih =>
    intro s hw
    have hstep : step is1 lc s = step is2 lc s := by
      unfold step
      rw [hag s.pos hw.1 hw.2.1]
    simp only [run]
    rw [← hstep]
    cases hs : step is1 lc s with
    | next u => exact ih u ((step_window is1 lc a b s u hb hline hw).1 hs)
    | eol u => rfl
    | eof u => rfl
    | undef => rfl

theorem initState_inWindow (N a b : Nat) (h : a ≤ b) : inWindow a b (initState N a) := by
  refine ⟨le_refl _, h, ?_⟩
  intro q hq
  simp [initState] at hq

/-- The shape of a stream around a line: where the newline is, and that there is none
before it. -/
theorem line_shape (pre line rest : List Char) (hnl : '\n' ∉ line) :
    (pre ++ (line ++ '\n' :: rest))[pre.length + line.length]? = some '\n' ∧
    (∀ p, pre.length ≤ p → p < pre.length + line.length →
      (pre ++ (line ++ '\n' :: rest))[p]? ≠ some '\n') ∧
    (∀ p, pre.length ≤ p → p ≤ pre.length + line.length →
      (pre ++ (line ++ '\n' :: rest))[p]? = (line ++ ['\n'])[p - pre.length]?) := by
  refine ⟨?_, ?_, ?_⟩
  · rw [getElem?_append_add]
    have := getElem?_append_add line ('\n' :: rest) 0
    simpa using this
  · intro p h1 h2 h
    obtain ⟨i, rfl⟩ : ∃ i, p = pre.length + i := ⟨p - pre.length, by omega⟩
    rw [getElem?_append_add, List.getElem?_append_left (by omega)] at h
    exact hnl (List.getElem?_mem h)
  · intro p h1 h2
    obtain ⟨i, rfl⟩ : ∃ i, p = pre.length + i := ⟨p - pre.length, by omega⟩
    rw [getElem?_append_add, Nat.add_sub_cancel_left]
    rcases Nat.lt_or_ge i line.length with h | h
    · rw [List.getElem?_append_left h, List.getElem?_append_left h]
    · have : i = line.length := by omega
      subst this
      have e1 := getElem?_append_add line ('\n' :: rest) 0
      have e2 := getElem?_append_add line ['\n'] 0
      simp only [Nat.add_zero] at e1 e2
      rw [e1, e2]
      simp

/-! ## A line without its newline, and a line further down the stream -/

/-- What a call reports: `none` inside when it ended in undefined behaviour. -/
theorem output_eq_observe (r : Result) : r.output = r.observe.map Prod.fst := by
  cases r <;> rfl

/-- The runs on `P` and on `P` followed by a newline make the same passes; where the
first meets the end of input the second reads the newline. -/
theorem run_unterminated (P : List Char) (lc : Int) (n : Nat) :
    ∀ s : State, (run P lc n s).map Result.observe
      = (run (P ++ ['\n']) lc n s).map Result.observe ∧
      steps P lc n s = steps (P ++ ['\n']) lc n s := by
  induction n with
  | zero => intro s; simp [run, steps]
  | succ n ih =>
    intro s
    simp only [run, steps]
    rcases Nat.lt_trichotomy s.pos P.length with h | h | h
    · have e : (P ++ ['\n'])[s.pos]? = P[s.pos]? := List.getElem?_append_left h
      have hstep : step (P ++ ['\n']) lc s = step P lc s := by
        unfold step
        rw [e]
      rw [hstep]
      cases hs : step P lc s with
      | next u => exact ih u
      | eol u => exact ⟨rfl, rfl⟩
      | eof u => exact ⟨rfl, rfl⟩
      | undef => exact ⟨rfl, rfl⟩
    · have e1 : P[s.pos]? = none := List.getElem?_eq_none (by omega)
      have e2 : (P ++ ['\n'])[s.pos]? = some '\n' := by
        rw [h]
        simp
      have h1 : step P lc s = Step.eof s := by
        unfold step
        rw [e1]
      rw [h1, step_newline _ lc s e2]
      exact ⟨rfl, rfl⟩
    · have e1 : P[s.pos]? = none := List.getElem?_eq_none (by omega)
      have e2 : (P ++ ['\n'])[s.pos]? = none :=
        List.getElem?_eq_none (by simp; omega)
      have h1 : step P lc s = Step.eof s := by
        unfold step
        rw [e1]
      have h2 : step (P ++ ['\n']) lc s = Step.eof s := by
        unfold step
        rw [e2]
      rw [h1, h2]
      exact ⟨rfl, rfl⟩

/-- A pass on a stream read `d` symbols further down is the same pass, with every
position `d` larger. -/
theorem step_shift (is rest : List Char) (lc : Int) (d : Nat)
    (h : ∀ p, is[p + d]? = rest[p]?) (s : State) :
    step is lc (s.mapPos (· + d)) = (step rest lc s).mapPos (· + d) := by
  unfold step
  have e : is[(s.mapPos (· + d)).pos]? = rest[s.pos]? := h s.pos
  rw [e]
  cases rest[s.pos]? with
  | none => rfl
  | some c =>
    simp only
    rw [← body_mapPos]
    congr 1
    simp [State.mapPos]
    omega

theorem run_shift (is rest : List Char) (lc : Int) (d : Nat)
    (h : ∀ p, is[p + d]? = rest[p]?) (n : Nat) :
    ∀ s : State, run is lc n (s.mapPos (· + d))
      = (run rest lc n s).map (Result.mapPos (· + d)) := by
  induction n with
  | zero => intro s; rfl
  | succ n ih =>
    intro s
    simp only [run]
    rw [step_shift is rest lc d h s]
    cases hs : step rest lc s with
    | next u => exact ih u
    | eol u => rfl
    | eof u => rfl
    | undef => rfl

theorem output_mapPos (g : Nat → Nat) (r : Result) : (r.mapPos g).output = r.output := by
  cases r <;> rfl

/-- The call made on the line that follows `P1` in the stream does what a call on the
rest of the stream, read from its start, does. -/
theorem bfck_after_line (P1 rest : List Char) (N n : Nat) :
    bfck n (P1 ++ '\n' :: rest) N (P1.length + 1)
      = (bfck n rest N 0).map (Result.mapPos (· + (P1.length + 1))) := by
  have h : ∀ p, (P1 ++ '\n' :: rest)[p + (P1.length + 1)]? = rest[p]? := by
    intro p
    have e : p + (P1.length + 1) = P1.length + (p + 1) := by omega
    rw [e, getElem?_append_add]
    simp
  have := run_shift (P1 ++ '\n' :: rest) rest (lastcell N) (P1.length + 1) h n (initState N 0)
  unfold bfck
  rw [← this]
  simp [State.mapPos, initState]

/-- A call on a line followed by more of the stream reports what a call on the line
alone reports. -/
theorem bfck_line_alone (P2 tail : List Char) (N n : Nat) (h2 : '\n' ∉ P2)
    (ht : tail = [] ∨ ∃ more, tail = '\n' :: more) :
    (bfck n (P2 ++ tail) N 0).map Result.observe = (bfck n P2 N 0).map Result.observe := by
  rcases ht with rfl | ⟨more, rfl⟩
  · rw [List.append_nil]
  · obtain ⟨hb, hline, hag⟩ := line_shape [] P2 more h2
    obtain ⟨hb', -, hag'⟩ := line_shape [] P2 [] h2
    simp only [List.nil_append, List.length_nil, Nat.zero_add, Nat.sub_zero] at hb hline hag hag'
    have hrun := run_agree (P2 ++ '\n' :: more) (P2 ++ ['\n']) (lastcell N) 0 P2.length hb
      (fun p h1 h2 => hline p h1 h2)
      (fun p h1 h2 => by rw [hag p h1 h2]) n (initState N 0)
      (initState_inWindow N 0 P2.length (Nat.zero_le _))
    unfold bfck
    rw [hrun, (run_unterminated P2 (lastcell N) n (initState N 0)).1]

/-! ## Invariants of a run -/

/-- A property kept by every pass that stays in the loop holds after any number of
such passes. -/
theorem steps_invariant (is : List Char) (lc : Int) (Inv : State → Prop)
    (hstep : ∀ s t, Inv s → step is lc s = Step.next t → Inv t) (n : Nat) :
    ∀ s t, Inv s → steps is lc n s = some t → Inv t := by
  induction n with
  | zero =>
    intro s t hs h
    simp only [steps, Option.some.injEq] at h
    exact h ▸ hs
  | succ n ih =>
    intro s t hs h
    simp only [steps] at h
    cases hst : step is lc s with
    | next u => rw [hst] at h; exact ih u t (hstep s u hs hst) h
    | eol u => rw [hst] at h; simp at h
    | eof u => rw [hst] at h; simp at h
    | undef => rw [hst] at h; simp at h

/-- A pass that stays in the loop is the body on the symbol under the cursor. -/
theorem step_next_body (is : List Char) (lc : Int) (s t : State)
    (h : step is lc s = Step.next t) :
    ∃ c, is[s.pos]? = some c ∧ body lc c { s with pos := s.pos + 1 } = Step.next t := by
  unfold step at h
  cases hc : is[s.pos]? with
  | none => rw [hc] at h; simp at h
  | some c => rw [hc] at h; exact ⟨c, rfl, h⟩

/-- The pointer updates of lines 89 and 93 keep the pointer inside the tape and
inside 16 bits. -/
theorem pointer_update_lt (N p : Nat) (hN : 0 < N) (hp : p < N) (hp16 : p < 65536) :
    ((if (p : Int) = lastcell N then 0 else toClen ((p : Int) + 1)) < N ∧
     (if (p : Int) = lastcell N then 0 else toClen ((p : Int) + 1)) < 65536) ∧
    ((if p = 0 then toClen (lastcell N) else toClen ((p : Int) - 1)) < N ∧
     (if p = 0 then toClen (lastcell N) else toClen ((p : Int) - 1)) < 65536) := by
  unfold lastcell toInt32 toClen
  refine ⟨⟨?_, ?_⟩, ⟨?_, ?_⟩⟩ <;> split_ifs <;> omega

/-- A pass keeps the number of cells, and keeps the pointer inside the tape. -/
theorem body_tape_inv (N : Nat) (hN : 0 < N) (c : Char) (s t : State)
    (h : body (lastcell N) c s = Step.next t)
    (hp : s.cellptr < N ∧ s.cellptr < 65536 ∧ s.cells.length = N) :
    t.cellptr < N ∧ t.cellptr < 65536 ∧ t.cells.length = N := by
  obtain ⟨hp1, hp2, hp3⟩ := hp
  obtain ⟨⟨r1, r2⟩, ⟨l1, l2⟩⟩ := pointer_update_lt N s.cellptr hN hp1 hp2
  by_cases hk : s.loopskip = 0 <;> cases hv : s.cells[s.cellptr]? <;>
    cases hl : s.loops.getLast? <;>
    rcases sym_cases c with rfl | rfl | rfl | rfl | rfl | rfl | rfl | rfl |
      ⟨h1, h2, h3, h4, h5, h6, h7, h8⟩ <;>
    simp [body, hk, hv, hl, *] at h <;>
    (try split_ifs at h) <;>
    (try simp at h) <;>
    subst h <;>
    simp_all

/-! ## The loop stack and the open loops -/

/-- What a pass that stays in the loop does to the cursor, the loop stack and the skip
depth, by cases on the mode and the symbol read. -/
theorem body_control (lc : Int) (c : Char) (s t : State) (h : body lc c s = Step.next t) :
    (s.loopskip ≠ 0 ∧ t.pos = s.pos ∧ t.loops = s.loops ∧
      t.loopskip = (if c = '[' then s.loopskip + 1 else if c = ']' then s.loopskip - 1
                    else s.loopskip)) ∨
    (s.loopskip = 0 ∧ c = '[' ∧ t.pos = s.pos ∧ t.loops = s.loops ++ [s.pos] ∧
      t.loopskip = 0) ∨
    (s.loopskip = 0 ∧ c = '[' ∧ t.pos = s.pos ∧ t.loops = s.loops ∧ t.loopskip = 1) ∨
    (s.loopskip = 0 ∧ c = ']' ∧ s.loops.getLast? = some t.pos ∧ t.loops = s.loops ∧
      t.loopskip = 0) ∨
    (s.loopskip = 0 ∧ c = ']' ∧ s.loops ≠ [] ∧ t.pos = s.pos ∧
      t.loops = s.loops.dropLast ∧ t.loopskip = 0) ∨
    (s.loopskip = 0 ∧ c ≠ '[' ∧ c ≠ ']' ∧ t.pos = s.pos ∧ t.loops = s.loops ∧
      t.loopskip = 0) := by
  by_cases hk : s.loopskip = 0 <;> cases hv : s.cells[s.cellptr]? <;>
    cases hl : s.loops.getLast? <;>
    rcases sym_cases c with rfl | rfl | rfl | rfl | rfl | rfl | rfl | rfl |
      ⟨h1, h2, h3, h4, h5, h6, h7, h8⟩ <;>
    simp [body, hk, hv, hl, *] at h <;>
    (try split_ifs at h) <;>
    (try simp at h) <;>
    subst h <;>
    simp_all

/-- Every open loop around `p` starts at or before `p`, and the loops open around its
start are the loops around `p` up to and including it. -/
theorem enclosing_consistent (P : List Char) (p : Nat) :
    ∀ k q, (enclosing P p)[k]? = some q →
      q ≤ p ∧ enclosing P q = (enclosing P p).take (k + 1) := by
  induction p with
  | zero => intro k q h; simp [enclosing] at h
  | succ p ih =>
    intro k q h
    simp only [enclosing] at h ⊢
    by_cases h1 : P[p]? = some '['
    · rw [if_pos h1] at h ⊢
      rcases Nat.lt_or_ge k (enclosing P p).length with hk | hk
      · rw [List.getElem?_append_left hk] at h
        obtain ⟨a, b⟩ := ih k q h
        refine ⟨by omega, ?_⟩
        rw [b, List.take_append_of_le_length (by omega)]
      · rw [List.getElem?_append_right hk] at h
        have hk0 : k - (enclosing P p).length = 0 := by
          by_contra hne
          rw [List.getElem?_eq_none (by simp; omega)] at h
          simp at h
        rw [hk0] at h
        simp only [List.getElem?_cons_zero, Option.some.injEq] at h
        subst h
        refine ⟨le_refl _, ?_⟩
        have : k = (enclosing P p).length := by omega
        subst this
        simp only [enclosing, h1, if_true]
        rw [List.take_of_length_le (by simp)]
    · by_cases h2 : P[p]? = some ']'
      · rw [if_neg h1, if_pos h2] at h ⊢
        have hk : k < (enclosing P p).dropLast.length := by
          by_contra hn
          rw [List.getElem?_eq_none (by omega)] at h
          simp at h
        rw [List.dropLast_eq_take] at h hk ⊢
        rw [List.length_take] at hk
        rw [List.getElem?_take_of_lt (by omega)] at h
        obtain ⟨a, b⟩ := ih k q h
        refine ⟨by omega, ?_⟩
        rw [b, List.take_take]
        congr 1
        omega
      · rw [if_neg h1, if_neg h2] at h ⊢
        obtain ⟨a, b⟩ := ih k q h
        exact ⟨by omega, b⟩

/-- The loops open around the start of the innermost open loop are the open loops. -/
theorem enclosing_last (P : List Char) (p q : Nat) (h : (enclosing P p).getLast? = some q) :
    q ≤ p ∧ enclosing P q = enclosing P p := by
  have hne : enclosing P p ≠ [] := by
    intro e
    rw [e] at h
    simp at h
  have hlen : 0 < (enclosing P p).length := List.length_pos.mpr hne
  have hget : (enclosing P p)[(enclosing P p).length - 1]? = some q := by
    rw [← h, List.getLast?_eq_getElem?]
  obtain ⟨a, b⟩ := enclosing_consistent P p _ q hget
  refine ⟨a, ?_⟩
  rw [b, List.take_of_length_le (by omega)]

/-- When no `]` of `P` closes more than is open, the nesting depth after `p` symbols is
the number of open loops around `p`, and a `]` at `p` has an open loop around it. -/
theorem enclosing_depth (P : List Char) (d : Nat) (h : scanDepth 0 P = some d) (p : Nat)
    (hp : p ≤ P.length) :
    scanDepth 0 (P.take p) = some (enclosing P p).length ∧
    (p < P.length → P[p]? = some ']' → enclosing P p ≠ []) := by
  have hall : ∀ p, p ≤ P.length → scanDepth 0 (P.take p) = some (enclosing P p).length := by
    intro p
    induction p with
    | zero => intro _; simp [scanDepth, enclosing]
    | succ p ih =>
      intro hp
      have hlt : p < P.length := by omega
      obtain ⟨e, he⟩ := scanDepth_take 0 d P (p + 1) h
      have htake : P.take (p + 1) = P.take p ++ [P[p]] := by
        rw [List.take_succ, List.getElem?_eq_getElem hlt]
        rfl
      have hc : P[p]? = some P[p] := List.getElem?_eq_getElem hlt
      rw [htake, scanDepth_append, ih (by omega)] at he
      rw [htake, scanDepth_append, ih (by omega)]
      simp only [Option.some_bind, scanDepth] at he ⊢
      by_cases h1 : P[p] = '['
      · have h1' : P[p]? = some '[' := by rw [hc, h1]
        simp only [enclosing, h1', if_true, h1, List.length_append, List.length_singleton]
      · have h1' : ¬ (P[p]? = some '[') := by
          rw [hc]
          exact fun e => h1 (Option.some.inj e)
        by_cases h2 : P[p] = ']'
        · have h2' : P[p]? = some ']' := by rw [hc, h2]
          simp only [enclosing, if_neg h1', if_pos h2', List.length_dropLast]
          simp only [if_neg h1, if_pos h2] at he ⊢
          by_cases h0 : (enclosing P p).length = 0
          · simp [h0] at he
          · simp only [h0, if_false]
        · have h2' : ¬ (P[p]? = some ']') := by
            rw [hc]
            exact fun e => h2 (Option.some.inj e)
          simp only [enclosing, if_neg h1', if_neg h2', if_neg h1, if_neg h2]
  refine ⟨hall p hp, ?_⟩
  intro hlt hc hnil
  obtain ⟨e, he⟩ := scanDepth_take 0 d P (p + 1) h
  have htake : P.take (p + 1) = P.take p ++ [']'] := by
    rw [List.take_succ, hc]
    rfl
  rw [htake, scanDepth_append, hall p hp, hnil] at he
  simp [scanDepth] at he

theorem enclosing_open (P : List Char) (p : Nat) (h : P[p]? = some '[') :
    enclosing P (p + 1) = enclosing P p ++ [p + 1] := by
  simp only [enclosing, h, if_true]

theorem enclosing_close (P : List Char) (p : Nat) (h : P[p]? = some ']') :
    enclosing P (p + 1) = (enclosing P p).dropLast := by
  have h1 : ¬ (P[p]? = some '[') := by rw [h]; decide
  simp only [enclosing, if_neg h1, if_pos h]

theorem enclosing_other (P : List Char) (p : Nat) (c : Char) (h : P[p]? = some c)
    (h1 : c ≠ '[') (h2 : c ≠ ']') : enclosing P (p + 1) = enclosing P p := by
  have h1' : ¬ (P[p]? = some '[') := by rw [h]; exact fun e => h1 (Option.some.inj e)
  have h2' : ¬ (P[p]? = some ']') := by rw [h]; exact fun e => h2 (Option.some.inj e)
  simp only [enclosing, if_neg h1', if_neg h2']

/-- On a line on which no `]` closes more than is open, a pass that stays in the loop
keeps the loop stack in step with the open loops around the cursor. -/
theorem step_stackInv (P tail : List Char) (lc : Int) (d : Nat)
    (hd : scanDepth 0 P = some d)
    (ht : tail = [] ∨ ∃ more, tail = '\n' :: more) (s t : State)
    (hs : stackInv P s) (hst : step (P ++ tail) lc s = Step.next t) : stackInv P t := by
  obtain ⟨hpos, hk, hloops⟩ := hs
  obtain ⟨c, hc, hb⟩ := step_next_body _ lc s t hst
  have hcnl : c ≠ '\n' := (body_next_inv lc c _ t hb).1
  have hlt : s.pos < P.length := by
    rcases Nat.lt_or_ge s.pos P.length with h | h
    · exact h
    · exfalso
      have e : s.pos = P.length + 0 := by omega
      rw [e, getElem?_append_add] at hc
      rcases ht with rfl | ⟨more, rfl⟩
      · simp at hc
      · simp only [List.getElem?_cons_zero, Option.some.injEq] at hc
        exact hcnl hc.symm
  have hcP : P[s.pos]? = some c := by
    rw [← hc, List.getElem?_append_left hlt]
  have hclose : c = ']' → enclosing P s.pos ≠ [] := fun e =>
    (enclosing_depth P d hd s.pos hpos).2 hlt (e ▸ hcP)
  unfold stackInv
  rcases body_control lc c _ t hb with
    ⟨h0, h1, h2, h3⟩ | ⟨h0, rfl, h1, h2, h3⟩ | ⟨h0, rfl, h1, h2, h3⟩ |
    ⟨h0, rfl, h1, h2, h3⟩ | ⟨h0, rfl, hne, h1, h2, h3⟩ | ⟨h0, hc1, hc2, h1, h2, h3⟩ <;>
    simp only at h0 h1 h2 h3
  · -- skip mode
    rw [h1, h2, h3, hloops]
    by_cases e1 : c = '['
    · subst e1
      rw [enclosing_open P _ hcP, if_pos rfl, List.length_append, List.length_singleton]
      refine ⟨by omega, by omega, ?_⟩
      rw [List.take_append_of_le_length (by omega)]
      congr 1
      omega
    · by_cases e2 : c = ']'
      · subst e2
        have hne := hclose rfl
        have hlen : 0 < (enclosing P s.pos).length := List.length_pos.mpr hne
        rw [enclosing_close P _ hcP, if_neg e1, if_pos rfl, List.length_dropLast,
          List.dropLast_eq_take, List.take_take]
        refine ⟨by omega, by omega, ?_⟩
        congr 1
        omega
      · rw [enclosing_other P _ c hcP e1 e2, if_neg e1, if_neg e2]
        exact ⟨by omega, hk, rfl⟩
  · -- `[` entered
    rw [h1, h2, h3, hloops, enclosing_open P _ hcP, h0]
    refine ⟨by omega, Nat.zero_le _, ?_⟩
    simp
  · -- `[` skipped
    rw [h1, h2, h3, hloops, enclosing_open P _ hcP, h0]
    refine ⟨by omega, by simp, ?_⟩
    simp
  · -- `]`, the loop goes on
    rw [hloops, h0, Nat.sub_zero, List.take_length] at h1
    obtain ⟨a, b⟩ := enclosing_last P s.pos t.pos h1
    rw [h2, h3, b, hloops, h0]
    exact ⟨by omega, Nat.zero_le _, rfl⟩
  · -- `]`, the loop is left
    rw [h1, h2, h3, hloops, enclosing_close P _ hcP, h0]
    refine ⟨by omega, Nat.zero_le _, ?_⟩
    simp
  · -- any other symbol
    rw [h1, h2, h3, hloops, enclosing_other P _ c hcP hc1 hc2, h0]
    exact ⟨by omega, Nat.zero_le _, rfl⟩

theorem initState_stackInv (P : List Char) (N : Nat) : stackInv P (initState N 0) := by
  simp [stackInv, initState, enclosing]

/-- A call that has returned made some passes in the loop and then one pass that left
it. -/
theorem run_last_step (is : List Char) (lc : Int) (n : Nat) :
    ∀ (s0 : State) (r : Result), run is lc n s0 = some r →
      ∃ k s, steps is lc k s0 = some s ∧
        ((∃ st, step is lc s = Step.eol st ∧ r = Result.eol st) ∨
         (∃ st, step is lc s = Step.eof st ∧ r = Result.eof st) ∨
         (step is lc s = Step.undef ∧ r = Result.undef)) := by
  induction n with
  | zero => intro s0 r h; simp [run] at h
  | succ n ih =>
    intro s0 r h
    simp only [run] at h
    cases hs : step is lc s0 with
    | next u =>
      rw [hs] at h
      obtain ⟨k, s, hk, hr⟩ := ih u r h
      exact ⟨k + 1, s, by simp only [steps, hs]; exact hk, hr⟩
    | eol u =>
      rw [hs] at h
      simp only [Option.some.injEq] at h
      exact ⟨0, s0, rfl, Or.inl ⟨u, hs, h.symm⟩⟩
    | eof u =>
      rw [hs] at h
      simp only [Option.some.injEq] at h
      exact ⟨0, s0, rfl, Or.inr (Or.inl ⟨u, hs, h.symm⟩)⟩
    | undef =>
      rw [hs] at h
      simp only [Option.some.injEq] at h
      exact ⟨0, s0, rfl, Or.inr (Or.inr ⟨hs, h.symm⟩)⟩

/-- How a pass leaves the loop: through the newline under the cursor, or at the end of
the stream. -/
theorem step_leave (is : List Char) (lc : Int) (s st : State) :
    (step is lc s = Step.eol st → is[s.pos]? = some '\n' ∧ st = { s with pos := s.pos + 1 }) ∧
    (step is lc s = Step.eof st → is[s.pos]? = none ∧ st = s) := by
  unfold step
  cases hc : is[s.pos]? with
  | none => simp; exact fun h => h.symm
  | some c =>
    simp only
    refine ⟨fun h => ?_, fun h => absurd h (body_leave_inv lc c _ st).2⟩
    obtain ⟨h1, h2⟩ := (body_leave_inv lc c _ st).1 h
    exact ⟨by rw [h1], h2⟩

/-- A pass is undefined only in normal mode, on a cell access outside the tape or on a
`]` with an empty loop stack. -/
theorem body_undef (lc : Int) (c : Char) (s : State) (h : body lc c s = Step.undef) :
    s.loopskip = 0 ∧ (s.cells[s.cellptr]? = none ∨ (c = ']' ∧ s.loops = [])) := by
  by_cases hk : s.loopskip = 0 <;> cases hv : s.cells[s.cellptr]? <;>
    cases hl : s.loops.getLast? <;>
    rcases sym_cases c with rfl | rfl | rfl | rfl | rfl | rfl | rfl | rfl |
      ⟨h1, h2, h3, h4, h5, h6, h7, h8⟩ <;>
    simp [body, hk, hv, hl, *] at h <;>
    (try split_ifs at h) <;>
    simp_all

/-- A line in which every prefix has at least as many `[` as `]` is one on which no `]`
closes more than is open. -/
theorem scanDepth_of_counts (P : List Char) :
    ∀ d, (∀ k, (P.take k).count ']' ≤ d + (P.take k).count '[') →
      ∃ e, scanDepth d P = some e := by
  induction P with
  | nil => intro d _; exact ⟨d, rfl⟩
  | cons c cs ih =>
    intro d h
    simp only [scanDepth]
    by_cases h1 : c = '['
    · subst h1
      rw [if_pos rfl]
      apply ih
      intro k
      have := h (k + 1)
      simp only [List.take_succ_cons, List.count_cons_self] at this
      rw [List.count_cons_of_ne (by decide)] at this
      omega
    · by_cases h2 : c = ']'
      · subst h2
        rw [if_neg h1, if_pos rfl]
        have hd : d ≠ 0 := by
          have := h 1
          simp only [List.take_succ_cons, List.take_zero, List.count_cons_self,
            List.count_nil] at this
          rw [List.count_cons_of_ne (by decide)] at this
          simp at this
          omega
        rw [if_neg hd]
        apply ih
        intro k
        have := h (k + 1)
        simp only [List.take_succ_cons, List.count_cons_self] at this
        rw [List.count_cons_of_ne (by decide)] at this
        omega
      · rw [if_neg h1, if_neg h2]
        apply ih
        intro k
        have := h (k + 1)
        simp only [List.take_succ_cons] at this
        rw [List.count_cons_of_ne (fun e => h2 e.symm),
          List.count_cons_of_ne (fun e => h1 e.symm)] at this
        exact this

/-! ## C1: a loop entered with a zero cell is skipped as a unit -/

/-- C1. Skipped loops are skipped as a unit. For every state in normal mode whose current
cell is 0 and every bracket-balanced, newline-free `B`, the `B.length + 2` passes of the
loop over `[` `B` `]` all stay inside the loop, every intermediate state is the start
state with only the cursor advanced and a nonzero skip depth, and the last state is the
start state with the cursor right after the matching `]` (skip depth 0 again; cells,
pointer, output and loop stack unchanged). From a fresh tape of any positive size,
`[+]` ends at end of input with no output, and `[[[+]]]+.` ends with the single output
byte 1. -/
theorem skipped_loop_is_unit :
    (∀ (is pre B post : List Char) (lc : Int) (s : State),
      is = pre ++ '[' :: (B ++ ']' :: post) → s.pos = pre.length →
      s.loopskip = 0 → s.cells[s.cellptr]? = some 0 →
      balanced B = true → '\n' ∉ B →
        steps is lc (B.length + 2) s = some { s with pos := s.pos + (B.length + 2) } ∧
        ∀ j, 0 < j → j < B.length + 2 → ∃ d, d ≠ 0 ∧
          steps is lc j s = some { s with pos := s.pos + j, loopskip := d }) ∧
    (∀ N, 0 < N → bfck 4 "[+]".toList N 0 =
      some (Result.eof { initState N 0 with pos := 3 })) ∧
    (∀ N, 0 < N → bfck 10 "[[[+]]]+.".toList N 0 =
      some (Result.eof { initState N 0 with
        pos := 9, cells := (List.replicate N 0).set 0 1, out := [1] })) := by
  refine ⟨?_, ?_, ?_⟩
  · intro is pre B post lc s his hpos hskip hcell hbal hnl
    have hscan : scanDepth 0 B = some 0 := by simpa [balanced] using hbal
    -- the opening bracket
    have h0 : is[s.pos]? = some '[' := by
      have := getElem?_append_add pre ('[' :: (B ++ ']' :: post)) 0
      simpa [his, hpos] using this
    have hfirst : step is lc s = Step.next { s with pos := s.pos + 1, loopskip := 1 } := by
      unfold step body
      simp [h0, hskip, hcell]
    -- the body, read in skip mode
    have hB : ∀ i, i < B.length →
        is[({ s with pos := s.pos + 1, loopskip := 1 } : State).pos + i]? = B[i]? := by
      intro i hi
      have e : pre.length + 1 + i = pre.length + (i + 1) := by omega
      have := getElem?_append_add pre ('[' :: (B ++ ']' :: post)) (i + 1)
      simp only [his, hpos, e, this]
      simp [List.getElem?_append_left, hi]
    have hbody : ∀ j, j ≤ B.length → ∃ e,
        steps is lc (j + 1) s = some { s with pos := s.pos + (j + 1), loopskip := 0 + 1 + e } ∧
        (j = B.length → e = 0) := by
      intro j hj
      obtain ⟨e, he⟩ := scanDepth_take 0 0 B j hscan
      have hlen : (B.take j).length = j := by simp [hj]
      have hnl2 : '\n' ∉ B.take j := fun hm => hnl (List.mem_of_mem_take hm)
      have hB2 : ∀ i, i < (B.take j).length →
          is[({ s with pos := s.pos + 1, loopskip := 1 } : State).pos + i]? = (B.take j)[i]? := by
        intro i hi
        rw [hlen] at hi
        rw [hB i (by omega), List.getElem?_take_of_lt hi]
      have := steps_skip_scan is lc (B.take j) 0 e 0 _ he hnl2 hB2 (by simp)
      rw [hlen] at this
      refine ⟨e, ?_, ?_⟩
      · rw [Nat.add_comm j 1, steps_add]
        simp only [steps, hfirst, Option.some_bind, this]
        simp [Nat.add_assoc, Nat.add_comm 1 j]
      · intro hjB
        subst hjB
        rw [List.take_length, hscan] at he
        exact (Option.some.inj he).symm
    constructor
    · obtain ⟨e, he, he0⟩ := hbody B.length (le_refl _)
      have e0 := he0 rfl
      subst e0
      have hlast : is[s.pos + (B.length + 1)]? = some ']' := by
        have := getElem?_append_add pre ('[' :: (B ++ ']' :: post)) (B.length + 1)
        have h2 := getElem?_append_add B (']' :: post) 0
        rw [his, hpos, this]
        simpa using h2
      refine steps_succ_last is lc (B.length + 1) s _ _ he ?_
      rw [step_skip is lc _ ']' hlast (by decide) (by simp)]
      simp [hskip, Nat.add_assoc]
    · intro j hj0 hj
      obtain ⟨e, he, -⟩ := hbody (j - 1) (by omega)
      refine ⟨0 + 1 + e, by omega, ?_⟩
      have : j - 1 + 1 = j := by omega
      rw [this] at he
      exact he
  · intro N h
    obtain ⟨n, rfl⟩ := Nat.exists_eq_succ_of_ne_zero (Nat.pos_iff_ne_zero.mp h)
    have hp : "[+]".toList = ['[', '+', ']'] := rfl
    rw [hp]
    simp [bfck, run, step, body, initState, List.replicate_succ]
  · intro N h
    obtain ⟨n, rfl⟩ := Nat.exists_eq_succ_of_ne_zero (Nat.pos_iff_ne_zero.mp h)
    have hp : "[[[+]]]+.".toList = ['[', '[', '[', '+', ']', ']', ']', '+', '.'] := rfl
    rw [hp]
    simp [bfck, run, step, body, initState, List.replicate_succ]

/-- C1 at the stream `[[-]>]+.`, read from a fresh two-cell tape, and at tape size 1. -/
theorem skipped_loop_is_unit_witness :
    steps "[[-]>]+.".toList (lastcell 2) 6 (initState 2 0)
        = some { initState 2 0 with pos := 6 } ∧
    bfck 4 "[+]".toList 1 0 = some (Result.eof { initState 1 0 with pos := 3 }) ∧
    bfck 10 "[[[+]]]+.".toList 1 0 = some (Result.eof { initState 1 0 with
        pos := 9, cells := (List.replicate 1 0).set 0 1, out := [1] }) :=
  ⟨(skipped_loop_is_unit.1 "[[-]>]+.".toList [] "[-]>".toList "+.".toList (lastcell 2)
      (initState 2 0) rfl rfl rfl rfl (by decide) (by decide)).1,
   skipped_loop_is_unit.2.1 1 (by decide),
   skipped_loop_is_unit.2.2 1 (by decide)⟩

/-! ## C2: the doubling loop -/

theorem oneCell_iter (tl : List Nat) (v : Nat) (hv : v + 1 < 256) :
    steps doublingProgram 0 6 (oneCellHead tl v) = some (oneCellHead tl (v + 1)) := by
  have hp : doublingProgram = ['+', '+', '[', '>', '+', '+', '<', '-', ']', '>', '.'] := rfl
  rw [hp]
  have e1 : (v + 1 + 1 + 255) % 256 = v + 1 := by omega
  simp [steps, step, body, oneCellHead, toClen, e1]

theorem oneCell_iters (tl : List Nat) (k v : Nat) (hv : v + k < 256) :
    steps doublingProgram 0 (6 * k) (oneCellHead tl v) = some (oneCellHead tl (v + k)) := by
  induction k generalizing v with
  | zero => simp [steps]
  | succ k ih =>
    have e : 6 * (k + 1) = 6 + 6 * k := by ring
    rw [e, steps_add, oneCell_iter tl v (by omega)]
    simp only [Option.some_bind]
    rw [ih (v + 1) (by omega)]
    congr 2
    omega

theorem oneCell_enter (n : Nat) :
    steps doublingProgram 0 3 (initState (n + 1) 0) = some (oneCellHead (List.replicate n 0) 2) := by
  have hp : doublingProgram = ['+', '+', '[', '>', '+', '+', '<', '-', ']', '>', '.'] := rfl
  rw [hp]
  simp [steps, step, body, oneCellHead, initState, List.replicate_succ]

theorem oneCell_exit (tl : List Nat) :
    run doublingProgram 0 9 (oneCellHead tl 255) =
      some (Result.eof { pos := 11, cells := 0 :: tl, cellptr := 0, loops := [],
                         loopskip := 0, out := [0] }) := by
  have hp : doublingProgram = ['+', '+', '[', '>', '+', '+', '<', '-', ']', '>', '.'] := rfl
  rw [hp]
  simp [run, step, body, oneCellHead, toClen]

/-- When `lastcell` is 0 the doubling program runs on a single cell and prints 0. -/
theorem oneCell_doubling (N : Nat) (hN : 0 < N) (h : lastcell N = 0) :
    (bfck 1530 doublingProgram N 0).bind Result.output = some [0] := by
  obtain ⟨n, rfl⟩ := Nat.exists_eq_succ_of_ne_zero (Nat.pos_iff_ne_zero.mp hN)
  unfold bfck
  rw [h]
  have e : 1530 = 3 + (6 * 253 + 9) := by norm_num
  rw [e, run_of_steps _ _ 3 _ _ _ (oneCell_enter n),
    run_of_steps _ _ (6 * 253) 9 _ _ (oneCell_iters _ 253 2 (by norm_num)), oneCell_exit]
  rfl

/-- C2 fails at tape size 2^32 + 1: there `lastcell` is 0, both `>` and `<` leave the
pointer at cell 0, the loop counts cell 0 up to 256 = 0, and the single output byte is 0;
no amount of fuel yields the output `[4]`. -/
theorem doubling_counterexample :
    (bfck 1530 doublingProgram 4294967297 0).bind Result.output = some [0] ∧
    ∀ fuel, (bfck fuel doublingProgram 4294967297 0).bind Result.output ≠ some [4] := by
  have h := oneCell_doubling 4294967297 (by norm_num) (by decide)
  refine ⟨h, ?_⟩
  intro fuel hf
  cases hr : bfck fuel doublingProgram 4294967297 0 with
  | none => rw [hr] at hf; simp at hf
  | some r =>
    have h2 := run_mono _ _ fuel 1530 _ r hr
    rw [Nat.add_comm] at h2
    cases hq : bfck 1530 doublingProgram 4294967297 0 with
    | none => rw [hq] at h; simp at h
    | some q =>
      have h3 := run_mono _ _ 1530 fuel _ q hq
      unfold bfck at hr hq h3
      rw [h2] at h3
      have e := Option.some.inj h3
      subst e
      unfold bfck at hf h
      rw [hr] at hf
      rw [hq, hf] at h
      simp at h

/-- The `int` `lastcell` is 0 exactly when `totalcells - 1` is a multiple of 2^32. -/
theorem lastcell_eq_zero_iff (N : Nat) :
    lastcell N = 0 ↔ ((N : Int) - 1) % 4294967296 = 0 := by
  unfold lastcell toInt32
  omega

/-- C2, amended. For every tape size `N ≥ 2` for which `N - 1` is not a multiple of 2^32
(so that `lastcell` is not 0; every `2 ≤ N ≤ 2^32` is such), `++[>++<-]>.` run from a
fresh tape ends at end of input after 17 symbols, and its output is exactly one byte, of
value 4 (cell 1 holds 4, cell 0 is back to 0). -/
theorem doubling_outputs_four (N : Nat) (h2 : 2 ≤ N) (hl : (N - 1) % 4294967296 ≠ 0) :
    bfck 18 doublingProgram N 0 =
      some (Result.eof { pos := 11, cells := (List.replicate N 0).set 1 4, cellptr := 1,
                         loops := [], loopskip := 0, out := [4] }) := by
  have hlc : lastcell N ≠ 0 := by
    intro h
    have := (lastcell_eq_zero_iff N).mp h
    omega
  obtain ⟨n, rfl⟩ : ∃ n, N = n + 2 := ⟨N - 2, by omega⟩
  have hp : doublingProgram = ['+', '+', '[', '>', '+', '+', '<', '-', ']', '>', '.'] := rfl
  rw [hp]
  unfold bfck
  generalize lastcell (n + 2) = lc at hlc
  have hlc2 : ¬ (0 = lc) := fun h => hlc h.symm
  simp [run, step, body, initState, List.replicate_succ, hlc2, toClen]

/-- C2, amended, at tape sizes 2 and 8192. -/
theorem doubling_outputs_four_witness :
    bfck 18 doublingProgram 2 0 =
      some (Result.eof { pos := 11, cells := [0, 4], cellptr := 1,
                         loops := [], loopskip := 0, out := [4] }) ∧
    (bfck 18 doublingProgram TOTALCELLS 0).bind Result.output = some [4] :=
  ⟨doubling_outputs_four 2 (by decide) (by decide),
   by rw [doubling_outputs_four TOTALCELLS (by decide) (by decide)]; rfl⟩

/-! ## C3: the clearing loop -/

theorem clearingProgram_at (k i : Nat) :
    (clearingProgram k)[k + i]? = ['[', '-', ']', '.'][i]? := by
  have := getElem?_append_add (List.replicate k '+') ['[', '-', ']', '.'] i
  rw [List.length_replicate] at this
  exact this

theorem clearingProgram_plus (k i : Nat) (h : i < k) : (clearingProgram k)[i]? = some '+' := by
  unfold clearingProgram
  rw [List.getElem?_append_left (by simpa using h)]
  simp [h]

/-- The loop `[-]` entered with `v > 0` leaves after `v` rounds with the cell at 0. -/
theorem clear_loop (k : Nat) (lc : Int) (tl : List Nat) (v : Nat) (hv : v + 1 < 256) :
    steps (clearingProgram k) lc (2 * (v + 1)) (clearHead k tl (v + 1)) =
      some { pos := k + 3, cells := 0 :: tl, cellptr := 0, loops := [], loopskip := 0,
             out := [] } := by
  have h1 : (clearingProgram k)[k + 1]? = some '-' := clearingProgram_at k 1
  have h2 : (clearingProgram k)[k + 1 + 1]? = some ']' := clearingProgram_at k 2
  induction v with
  | zero =>
    simp [steps, step, body, clearHead, h1, h2]
  | succ v ih =>
    have e : 2 * (v + 1 + 1) = 2 + 2 * (v + 1) := by ring
    have e1 : (v + 1 + 1 + 255) % 256 = v + 1 := by omega
    have hfirst : steps (clearingProgram k) lc 2 (clearHead k tl (v + 1 + 1)) =
        some (clearHead k tl (v + 1)) := by
      simp [steps, step, body, clearHead, h1, h2, e1]
    rw [e, steps_add, hfirst]
    exact ih (by omega)

/-- C3. A clearing loop decrements to zero and exits: for every `k` and every positive
tape size, `k` symbols `+` followed by `[-]` and `.`, run from a fresh tape, end at end of
input with exactly one output byte, of value 0 (every cell is 0 again, the loop stack is
empty). -/
theorem clearing_loop_outputs_zero (k N : Nat) (hN : 0 < N) :
    bfck (k + 2 * (k % 256) + 5) (clearingProgram k) N 0 =
      some (Result.eof { pos := k + 4, cells := List.replicate N 0, cellptr := 0, loops := [],
                         loopskip := 0, out := [0] }) := by
  obtain ⟨n, rfl⟩ := Nat.exists_eq_succ_of_ne_zero (Nat.pos_iff_ne_zero.mp hN)
  unfold bfck
  generalize lastcell (n + 1) = lc
  have h0 : (clearingProgram k)[k]? = some '[' := clearingProgram_at k 0
  have h1 : (clearingProgram k)[k + 1]? = some '-' := clearingProgram_at k 1
  have h2 : (clearingProgram k)[k + 1 + 1]? = some ']' := clearingProgram_at k 2
  have h3 : (clearingProgram k)[k + 1 + 1 + 1]? = some '.' := clearingProgram_at k 3
  have h3' : (clearingProgram k)[k + 3]? = some '.' := clearingProgram_at k 3
  have h4 : (clearingProgram k)[k + 1 + 1 + 1 + 1]? = none := clearingProgram_at k 4
  have h4' : (clearingProgram k)[k + 3 + 1]? = none := clearingProgram_at k 4
  have hplus := steps_plus (clearingProgram k) lc k (initState (n + 1) 0) 0 rfl
    (by simp [initState, List.replicate_succ]) (by norm_num)
    (fun i hi => by simpa [initState] using clearingProgram_plus k i hi)
  simp only [initState, List.replicate_succ, List.set_cons_zero, Nat.zero_add] at hplus ⊢
  rw [Nat.add_assoc, run_of_steps _ _ k _ _ _ hplus]
  rcases Nat.eq_zero_or_pos (k % 256) with hz | hp
  · rw [hz]
    simp [run, step, body, h0, h1, h2, h3, h4]
  · obtain ⟨v, hv⟩ := Nat.exists_eq_succ_of_ne_zero (Nat.pos_iff_ne_zero.mp hp)
    have hlt : k % 256 < 256 := Nat.mod_lt _ (by norm_num)
    rw [hv] at hlt ⊢
    have e : 2 * (v + 1) + 5 = 1 + (2 * (v + 1) + 4) := by ring
    rw [e]
    have hopen : steps (clearingProgram k) lc 1
        { pos := k, cells := (v + 1) :: List.replicate n 0, cellptr := 0, loops := [],
          loopskip := 0, out := [] } = some (clearHead k (List.replicate n 0) (v + 1)) := by
      simp [steps, step, body, h0, clearHead]
    rw [run_of_steps _ _ 1 _ _ _ hopen,
      run_of_steps _ _ (2 * (v + 1)) 4 _ _ (clear_loop k lc (List.replicate n 0) v hlt)]
    simp [run, step, body, h3', h4']

/-- C3 at the spec's program `+++[-].` on a one-cell tape. -/
theorem clearing_loop_outputs_zero_witness :
    bfck 14 "+++[-].".toList 1 0 =
      some (Result.eof { pos := 7, cells := [0], cellptr := 0, loops := [],
                         loopskip := 0, out := [0] }) :=
  clearing_loop_outputs_zero 3 1 (by decide)

/-! ## C4: pointer movement -/

/-- C4 fails at tape size 65537 with the pointer at 0: `lastcell` is 65536, which the
16-bit pointer never equals and which converts to 0, so one `<` at 0 leaves the pointer at
0 (not at 65536), and 65537 symbols `>` move the pointer from 0 to 1. -/
theorem pointer_wrap_counterexample :
    step ['<'] (lastcell 65537) (initState 65537 0) =
      Step.next { initState 65537 0 with pos := 1, cellptr := 0 } ∧
    (steps (List.replicate 65537 '>') (lastcell 65537) 65537 (initState 65537 0)).map
      State.cellptr = some 1 := by
  have hl : lastcell 65537 = 65536 := by decide
  constructor
  · rw [step_left ['<'] _ (initState 65537 0) rfl rfl, hl]
    rfl
  · have hrow := steps_right (List.replicate 65537 '>') (lastcell 65537) 65537
      (initState 65537 0) rfl (fun i hi => by
        show (List.replicate 65537 '>')[0 + i]? = some '>'
        rw [Nat.zero_add]
        exact getElem?_replicate_lt _ _ _ hi)
    rw [hrow, hl]
    have hit := iterate_add_mod 65536 1
      (fun q : Nat => if (q : Int) = 65536 then 0 else toClen ((q : Int) + 1))
      (fun q hq => by
        have h1 : ¬ ((q : Int) = 65536) := by omega
        simp only [h1, if_false, toClen]
        omega) 65537 0 (by norm_num)
    simp only [Option.map_some', initState]
    rw [hit]

/-- C4, amended. Pointer movement wraps modulo the tape size for tape sizes that fit the
16-bit pointer: for every `N` with `1 ≤ N ≤ 65536`, every state in normal mode with
pointer `p < N`: reading `N` symbols `>` returns the state with only the cursor advanced
(the pointer is `p` again), and so does reading `N` symbols `<`; a single `>` at `N - 1`
sets the pointer to 0 and a single `<` at 0 sets it to `N - 1`. -/
theorem pointer_wraps (N : Nat) (hN : 0 < N) (hmax : N ≤ 65536) (s : State)
    (hskip : s.loopskip = 0) (hp : s.cellptr < N) (is pre post : List Char)
    (hpos : s.pos = pre.length) :
    (is = pre ++ (List.replicate N '>' ++ post) →
      steps is (lastcell N) N s = some { s with pos := s.pos + N }) ∧
    (is = pre ++ (List.replicate N '<' ++ post) →
      steps is (lastcell N) N s = some { s with pos := s.pos + N }) ∧
    (is[s.pos]? = some '>' → s.cellptr = N - 1 →
      step is (lastcell N) s = Step.next { s with pos := s.pos + 1, cellptr := 0 }) ∧
    (is[s.pos]? = some '<' → s.cellptr = 0 →
      step is (lastcell N) s = Step.next { s with pos := s.pos + 1, cellptr := N - 1 }) := by
  have hl := lastcell_small N hN hmax
  have hR : ∀ q, q < N →
      (fun q : Nat => if (q : Int) = lastcell N then 0 else toClen ((q : Int) + 1)) q
        = (q + 1) % N := by
    intro q hq
    simp only [hl, toClen]
    by_cases h : q = N - 1
    · subst h
      have : N - 1 + 1 = N := by omega
      simp [this]
    · have h1 : ¬ ((q : Int) = ((N - 1 : Nat) : Int)) := by omega
      rw [if_neg h1, Nat.mod_eq_of_lt (by omega)]
      omega
  have hL : ∀ q, q < N →
      (fun q : Nat => if q = 0 then toClen (lastcell N) else toClen ((q : Int) - 1)) q
        = (q + (N - 1)) % N := by
    intro q hq
    simp only [hl, toClen]
    by_cases h : q = 0
    · subst h
      rw [if_pos rfl, Nat.zero_add, Nat.mod_eq_of_lt (by omega)]
      omega
    · rw [if_neg h]
      have e : q + (N - 1) = (q - 1) + N := by omega
      rw [e, Nat.add_mod_right, Nat.mod_eq_of_lt (by omega)]
      omega
  refine ⟨?_, ?_, ?_, ?_⟩
  · intro his
    rw [steps_right is (lastcell N) N s hskip (fun i hi => by
      rw [his, hpos]; exact getElem?_row pre post _ N i hi)]
    rw [iterate_add_mod N 1 _ hR N s.cellptr hp]
    simp [Nat.mod_eq_of_lt hp]
  · intro his
    rw [steps_left is (lastcell N) N s hskip (fun i hi => by
      rw [his, hpos]; exact getElem?_row pre post _ N i hi)]
    rw [iterate_add_mod N (N - 1) _ hL N s.cellptr hp]
    simp [Nat.mod_eq_of_lt hp]
  · intro hc hq
    rw [step_right is _ s hc hskip]
    have := hR s.cellptr hp
    simp only at this
    rw [this, hq]
    have : N - 1 + 1 = N := by omega
    simp [this]
  · intro hc hq
    rw [step_left is _ s hc hskip]
    have := hL s.cellptr hp
    simp only at this
    rw [this, hq, Nat.zero_add, Nat.mod_eq_of_lt (by omega)]

/-- C4, amended, on a three-cell tape with the pointer at 0 and at 2. -/
theorem pointer_wraps_witness :
    steps ">>>".toList (lastcell 3) 3 (initState 3 0) = some { initState 3 0 with pos := 3 } ∧
    steps "<<<".toList (lastcell 3) 3 (initState 3 0) = some { initState 3 0 with pos := 3 } ∧
    step ">".toList (lastcell 3) { initState 3 0 with cellptr := 2 } =
      Step.next { initState 3 0 with pos := 1, cellptr := 0 } ∧
    step "<".toList (lastcell 3) (initState 3 0) =
      Step.next { initState 3 0 with pos := 1, cellptr := 2 } :=
  ⟨(pointer_wraps 3 (by decide) (by decide) (initState 3 0) rfl (by decide)
      ">>>".toList [] [] rfl).1 rfl,
   (pointer_wraps 3 (by decide) (by decide) (initState 3 0) rfl (by decide)
      "<<<".toList [] [] rfl).2.1 rfl,
   (pointer_wraps 3 (by decide) (by decide) { initState 3 0 with cellptr := 2 } rfl
      (by decide) ">".toList [] [] rfl).2.2.1 rfl rfl,
   (pointer_wraps 3 (by decide) (by decide) (initState 3 0) rfl (by decide)
      "<".toList [] [] rfl).2.2.2 rfl rfl⟩

/-! ## C5: cell arithmetic -/

/-- C5. Cell arithmetic wraps modulo 256. For every state in normal mode whose current
cell holds `v ≤ 255`: reading 256 symbols `+` returns the state with only the cursor
advanced (the cell is `v` again); after `k` of them only the cursor and the current cell
have changed, the cell holding `(v + k) % 256`; every other cell index reads as before;
a single `+` at 255 stores 0 and a single `-` at 0 stores 255, with the pointer, the
output, the loop stack and the skip depth unchanged. -/
theorem cell_wraps (is pre post : List Char) (lc : Int) (s : State) (v : Nat)
    (hskip : s.loopskip = 0) (hv : s.cells[s.cellptr]? = some v) (hlt : v < 256)
    (hpos : s.pos = pre.length) :
    (is = pre ++ (List.replicate 256 '+' ++ post) →
      steps is lc 256 s = some { s with pos := s.pos + 256 } ∧
      ∀ k, k ≤ 256 → steps is lc k s = some { s with
        pos := s.pos + k, cells := s.cells.set s.cellptr ((v + k) % 256) }) ∧
    (∀ j w, j ≠ s.cellptr → (s.cells.set s.cellptr w)[j]? = s.cells[j]?) ∧
    (is[s.pos]? = some '+' → v = 255 →
      step is lc s = Step.next { s with pos := s.pos + 1, cells := s.cells.set s.cellptr 0 }) ∧
    (is[s.pos]? = some '-' → v = 0 →
      step is lc s = Step.next { s with
        pos := s.pos + 1, cells := s.cells.set s.cellptr 255 }) := by
  refine ⟨?_, ?_, ?_, ?_⟩
  · intro his
    have hrow : ∀ k, k ≤ 256 → steps is lc k s = some { s with
        pos := s.pos + k, cells := s.cells.set s.cellptr ((v + k) % 256) } := by
      intro k hk
      exact steps_plus is lc k s v hskip hv hlt (fun i hi => by
        rw [his, hpos]; exact getElem?_row pre post _ 256 i (by omega))
    refine ⟨?_, hrow⟩
    rw [hrow 256 (le_refl _)]
    have e : (v + 256) % 256 = v := by omega
    have hset : s.cells.set s.cellptr v = s.cells := by
      apply List.ext_getElem?
      intro i
      by_cases hi : s.cellptr = i
      · subst hi; rw [getElem?_set_self_of_some _ _ _ _ hv, hv]
      · simp [List.getElem?_set, hi]
    rw [e, hset]
  · intro j w hj
    simp [List.getElem?_set, Ne.symm hj]
  · intro hc h255
    rw [step_plus is lc s v hc hskip hv, h255]
  · intro hc h0
    rw [step_minus is lc s v hc hskip hv, h0]

/-- C5 on a one-cell tape holding 255, resp. 0. -/
theorem cell_wraps_witness :
    steps (List.replicate 256 '+') 0 256
        { pos := 0, cells := [255], cellptr := 0, loops := [], loopskip := 0, out := [] } =
      some { pos := 256, cells := [255], cellptr := 0, loops := [], loopskip := 0,
             out := [] } ∧
    step ['+'] 0
        { pos := 0, cells := [255], cellptr := 0, loops := [], loopskip := 0, out := [] } =
      Step.next { pos := 1, cells := [0], cellptr := 0, loops := [], loopskip := 0,
                  out := [] } ∧
    step ['-'] 0 (initState 1 0) =
      Step.next { pos := 1, cells := [255], cellptr := 0, loops := [], loopskip := 0,
                  out := [] } :=
  ⟨((cell_wraps (List.replicate 256 '+') [] [] 0
      { pos := 0, cells := [255], cellptr := 0, loops := [], loopskip := 0, out := [] } 255
      rfl rfl (by decide) rfl).1 (by rw [List.nil_append, List.append_nil])).1,
   (cell_wraps ['+'] [] [] 0
      { pos := 0, cells := [255], cellptr := 0, loops := [], loopskip := 0, out := [] } 255
      rfl rfl (by decide) rfl).2.2.1 rfl rfl,
   (cell_wraps ['-'] [] [] 0 (initState 1 0) 0 rfl rfl (by decide) rfl).2.2.2 rfl rfl⟩

/-! ## C6: output -/

/-- One pass appends exactly one byte when it executes `.` in normal mode and stays in
the loop, and appends nothing otherwise. -/
theorem step_out_length (is : List Char) (lc : Int) (s t : State) :
    (step is lc s = Step.next t →
      t.out.length = s.out.length + (if executesDot is s then 1 else 0)) ∧
    (step is lc s = Step.eol t → t.out = s.out ∧ executesDot is s = false) ∧
    (step is lc s = Step.eof t → t.out = s.out ∧ executesDot is s = false) := by
  unfold step executesDot
  cases hc : is[s.pos]? with
  | none => simp; intro h; rw [h]
  | some c =>
    simp only
    refine ⟨?_, ?_, ?_⟩
    · intro h
      have := (body_next_inv lc c _ t h).2.2.2
      rw [this]
      simp
    · intro h
      obtain ⟨h1, h2⟩ := (body_leave_inv lc c _ t).1 h
      subst h1 h2
      simp
    · intro h
      exact absurd h (body_leave_inv lc c _ t).2

theorem steps_out_length (is : List Char) (lc : Int) (n : Nat) :
    ∀ s t : State, steps is lc n s = some t →
      t.out.length = s.out.length + dotCount is lc n s := by
  induction n with
  | zero => intro s t h; simp only [steps, Option.some.injEq] at h; subst h; simp [dotCount]
  | succ n ih =>
    intro s t h
    simp only [steps] at h
    simp only [dotCount]
    cases hs : step is lc s with
    | next u =>
      rw [hs] at h
      simp only at h ⊢
      rw [ih u t h, (step_out_length is lc s u).1 hs]
      omega
    | eol u => rw [hs] at h; simp at h
    | eof u => rw [hs] at h; simp at h
    | undef => rw [hs] at h; simp at h

theorem run_out_length (is : List Char) (lc : Int) (n : Nat) :
    ∀ (s : State) (r : Result) (out : List Nat), run is lc n s = some r →
      r.output = some out → out.length = s.out.length + dotCount is lc n s := by
  induction n with
  | zero => intro s r out h; simp [run] at h
  | succ n ih =>
    intro s r out h ho
    simp only [run] at h
    simp only [dotCount]
    cases hs : step is lc s with
    | next u =>
      rw [hs] at h
      simp only at h ⊢
      rw [ih u r out h ho, (step_out_length is lc s u).1 hs]
      omega
    | eol u =>
      rw [hs] at h
      simp only [Option.some.injEq] at h
      subst h
      obtain ⟨h1, h2⟩ := (step_out_length is lc s u).2.1 hs
      simp only [Result.output, Option.some.injEq] at ho
      simp [← ho, h1, h2]
    | eof u =>
      rw [hs] at h
      simp only [Option.some.injEq] at h
      subst h
      obtain ⟨h1, h2⟩ := (step_out_length is lc s u).2.2 hs
      simp only [Result.output, Option.some.injEq] at ho
      simp [← ho, h1, h2]
    | undef =>
      rw [hs] at h
      simp only [Option.some.injEq] at h
      subst h
      simp [Result.output] at ho

/-- C6. `.` emits the current cell as one byte. For every `k` and every positive tape
size, `k` symbols `+` followed by `.`, run from a fresh tape, end at end of input with
exactly one output byte, of value `k % 256`. And in every run the number of bytes written
is the number of passes that executed `.` in normal mode: after any number of passes that
stay in the loop, and at the return of every call that ends at a newline or at end of
input. -/
theorem dot_emits_current_cell :
    (∀ k N, 0 < N → bfck (k + 2) (printProgram k) N 0 =
      some (Result.eof { pos := k + 1, cells := (List.replicate N 0).set 0 (k % 256),
                         cellptr := 0, loops := [], loopskip := 0, out := [k % 256] })) ∧
    (∀ (is : List Char) (lc : Int) (n : Nat) (s t : State), steps is lc n s = some t →
      t.out.length = s.out.length + dotCount is lc n s) ∧
    (∀ (fuel : Nat) (is : List Char) (N pos : Nat) (r : Result) (out : List Nat),
      bfck fuel is N pos = some r → r.output = some out →
      out.length = dotCount is (lastcell N) fuel (initState N pos)) := by
  refine ⟨?_, ?_, ?_⟩
  · intro k N hN
    obtain ⟨n, rfl⟩ := Nat.exists_eq_succ_of_ne_zero (Nat.pos_iff_ne_zero.mp hN)
    unfold bfck
    generalize lastcell (n + 1) = lc
    have hat : ∀ i, (printProgram k)[k + i]? = ['.'][i]? := by
      intro i
      have := getElem?_append_add (List.replicate k '+') ['.'] i
      rw [List.length_replicate] at this
      exact this
    have h0 : (printProgram k)[k]? = some '.' := hat 0
    have h1 : (printProgram k)[k + 1]? = none := hat 1
    have hplus := steps_plus (printProgram k) lc k (initState (n + 1) 0) 0 rfl
      (by simp [initState, List.replicate_succ]) (by norm_num)
      (fun i hi => by
        unfold printProgram
        rw [List.getElem?_append_left (by simpa [initState] using hi)]
        simp only [initState, Nat.zero_add]
        exact getElem?_replicate_lt _ _ _ hi)
    simp only [initState, List.replicate_succ, List.set_cons_zero, Nat.zero_add] at hplus ⊢
    rw [run_of_steps _ _ k _ _ _ hplus]
    simp [run, step, body, h0, h1]
  · intro is lc n s t h
    exact steps_out_length is lc n s t h
  · intro fuel is N pos r out h ho
    have := run_out_length is (lastcell N) fuel (initState N pos) r out h ho
    simpa [initState] using this

/-- C6 at the spec's program `++.` on a one-cell tape. -/
theorem dot_emits_current_cell_witness :
    bfck 4 "++.".toList 1 0 =
      some (Result.eof { pos := 3, cells := [2], cellptr := 0, loops := [], loopskip := 0,
                         out := [2] }) ∧
    ([2] : List Nat).length = dotCount "++.".toList (lastcell 1) 4 (initState 1 0) :=
  ⟨dot_emits_current_cell.1 2 1 (by decide),
   dot_emits_current_cell.2.2 4 "++.".toList 1 0 _ [2] (dot_emits_current_cell.1 2 1 (by decide))
     rfl⟩

/-! ## C7: symbols that are not instructions -/

theorem strippedPos_zero (P : List Char) : strippedPos P 0 = 0 := by
  simp [strippedPos]

/-- Reading a kept symbol of `P` reads the same symbol of `stripped P` at the
corresponding position, and the positions after it correspond. -/
theorem stripped_kept (P : List Char) (p : Nat) (c : Char) (hc : P[p]? = some c)
    (hr : recognized c = true) :
    (stripped P)[strippedPos P p]? = some c ∧ strippedPos P (p + 1) = strippedPos P p + 1 := by
  have hp : p < P.length := by
    by_contra hn
    rw [List.getElem?_eq_none (by omega)] at hc
    simp at hc
  have hsplit : P = P.take p ++ c :: P.drop (p + 1) := by
    have h1 : P.drop p = c :: P.drop (p + 1) := by
      rw [List.drop_eq_getElem_cons hp]
      congr 1
      rw [List.getElem?_eq_getElem hp] at hc
      exact Option.some.inj hc
    rw [← h1, List.take_append_drop]
  constructor
  · unfold stripped strippedPos
    have hf : P.filter recognized =
        (P.take p).filter recognized ++ c :: (P.drop (p + 1)).filter recognized := by
      conv_lhs => rw [hsplit]
      rw [List.filter_append, List.filter_cons_of_pos hr]
    rw [hf]
    have := getElem?_append_add ((P.take p).filter recognized)
      (c :: (P.drop (p + 1)).filter recognized) 0
    simpa using this
  · unfold strippedPos
    have h2 : P.take (p + 1) = P.take p ++ [c] := by
      rw [List.take_succ, hc]
      rfl
    rw [h2, List.filter_append, List.filter_cons_of_pos hr]
    simp

/-- A deleted symbol of `P` has the same corresponding position before and after it. -/
theorem stripped_dropped (P : List Char) (p : Nat) (c : Char) (hc : P[p]? = some c)
    (hr : recognized c = false) : strippedPos P (p + 1) = strippedPos P p := by
  unfold strippedPos
  have h2 : P.take (p + 1) = P.take p ++ [c] := by
    rw [List.take_succ, hc]
    rfl
  rw [h2, List.filter_append, List.filter_cons_of_neg (by simp [hr])]
  simp

/-- Past the end of `P` the corresponding position is past the end of `stripped P`. -/
theorem stripped_end (P : List Char) (p : Nat) (hc : P[p]? = none) :
    (stripped P)[strippedPos P p]? = none := by
  have hp : P.length ≤ p := by
    by_contra hn
    rw [List.getElem?_eq_getElem (by omega)] at hc
    simp at hc
  unfold stripped strippedPos
  rw [List.take_of_length_le hp]
  exact List.getElem?_eq_none (le_refl _)

theorem not_recognized (c : Char) (hr : recognized c = false) :
    c ≠ '\n' ∧ c ≠ '+' ∧ c ≠ '-' ∧ c ≠ '>' ∧ c ≠ '<' ∧ c ≠ '[' ∧ c ≠ ']' ∧ c ≠ '.' := by
  simp only [recognized, Bool.or_eq_false_iff, beq_eq_false_iff_ne] at hr
  tauto

/-- A pass on a kept symbol (or at end of input) is the same pass on the stripped
stream, up to the naming of positions. -/
theorem step_stripped_kept (P : List Char) (lc : Int) (s : State)
    (h : ∀ c, P[s.pos]? = some c → recognized c = true) :
    step (stripped P) lc (s.mapPos (strippedPos P)) = (step P lc s).mapPos (strippedPos P) := by
  unfold step
  cases hc : P[s.pos]? with
  | none =>
    have := stripped_end P s.pos hc
    simp only [State.mapPos] at this ⊢
    rw [this]
    rfl
  | some c =>
    obtain ⟨h1, h2⟩ := stripped_kept P s.pos c hc (h c hc)
    simp only [State.mapPos] at h1 ⊢
    rw [h1]
    simp only
    rw [← body_mapPos]
    simp [State.mapPos, h2]

/-- A pass on a deleted symbol only advances the cursor, to a position with the same
corresponding position. -/
theorem step_stripped_dropped (P : List Char) (lc : Int) (s : State) (c : Char)
    (hc : P[s.pos]? = some c) (hr : recognized c = false) :
    step P lc s = Step.next { s with pos := s.pos + 1 } ∧
    ({ s with pos := s.pos + 1 } : State).mapPos (strippedPos P) = s.mapPos (strippedPos P) := by
  constructor
  · unfold step
    rw [hc]
    exact body_noop lc c _ (not_recognized c hr)
  · simp [State.mapPos, stripped_dropped P s.pos c hc hr]

/-- The run on `P` is matched by the run on `stripped P`. -/
theorem run_stripped_forward (P : List Char) (lc : Int) (n : Nat) :
    ∀ (s : State) (r : Result), run P lc n s = some r →
      run (stripped P) lc n (s.mapPos (strippedPos P)) = some (r.mapPos (strippedPos P)) := by
  induction n with
  | zero => intro s r h; simp [run] at h
  | succ n ih =>
    intro s r h
    by_cases hk : ∀ c, P[s.pos]? = some c → recognized c = true
    · simp only [run] at h ⊢
      rw [step_stripped_kept P lc s hk]
      cases hs : step P lc s with
      | next u => rw [hs] at h; exact ih u r h
      | eol u => rw [hs] at h; simp only [Option.some.injEq] at h; subst h; rfl
      | eof u => rw [hs] at h; simp only [Option.some.injEq] at h; subst h; rfl
      | undef => rw [hs] at h; simp only [Option.some.injEq] at h; subst h; rfl
    · push_neg at hk
      obtain ⟨c, hc, hr⟩ := hk
      have hr' : recognized c = false := by simpa using hr
      obtain ⟨h1, h2⟩ := step_stripped_dropped P lc s c hc hr'
      simp only [run, h1] at h
      have := ih _ r h
      rw [h2] at this
      exact run_mono _ _ n 1 _ _ this

/-- The run on `stripped P` is matched by the run on `P`. -/
theorem run_stripped_backward (P : List Char) (lc : Int) (m : Nat) :
    ∀ (s : State) (r' : Result),
      run (stripped P) lc m (s.mapPos (strippedPos P)) = some r' →
      ∃ n r, run P lc n s = some r ∧ r.mapPos (strippedPos P) = r' := by
  induction m with
  | zero => intro s r' h; simp [run] at h
  | succ m ih =>
    -- deleted symbols in front of the cursor are read first
    have key : ∀ (d : Nat) (s : State), P.length - s.pos = d → ∀ r' : Result,
        run (stripped P) lc (m + 1) (s.mapPos (strippedPos P)) = some r' →
        ∃ n r, run P lc n s = some r ∧ r.mapPos (strippedPos P) = r' := by
      intro d
      induction d using Nat.strong_induction_on with
      | _ d ihd =>
        intro s hd r' h
        by_cases hk : ∀ c, P[s.pos]? = some c → recognized c = true
        · simp only [run] at h
          rw [step_stripped_kept P lc s hk] at h
          cases hs : step P lc s with
          | next u =>
            rw [hs] at h
            obtain ⟨n, r, hn, hr⟩ := ih u r' h
            exact ⟨n + 1, r, by simp only [run, hs]; exact hn, hr⟩
          | eol u =>
            rw [hs] at h
            exact ⟨1, Result.eol u, by simp [run, hs],
              by simpa [Step.mapPos, Result.mapPos] using h⟩
          | eof u =>
            rw [hs] at h
            exact ⟨1, Result.eof u, by simp [run, hs],
              by simpa [Step.mapPos, Result.mapPos] using h⟩
          | undef =>
            rw [hs] at h
            exact ⟨1, Result.undef, by simp [run, hs],
              by simpa [Step.mapPos, Result.mapPos] using h⟩
        · push_neg at hk
          obtain ⟨c, hc, hr⟩ := hk
          have hr' : recognized c = false := by simpa using hr
          obtain ⟨h1, h2⟩ := step_stripped_dropped P lc s c hc hr'
          have hp : s.pos < P.length := by
            by_contra hn
            rw [List.getElem?_eq_none (by omega)] at hc
            simp at hc
          rw [← h2] at h
          obtain ⟨n, r, hn, hr2⟩ := ihd (P.length - (s.pos + 1)) (by omega)
            { s with pos := s.pos + 1 } rfl r' h
          exact ⟨n + 1, r, by simp only [run, h1]; exact hn, hr2⟩
    intro s r' h
    exact key _ s rfl r' h

theorem observe_mapPos (g : Nat → Nat) (r : Result) : (r.mapPos g).observe = r.observe := by
  cases r <;> rfl

/-- C7. Unrecognized symbols are no-ops. For every stream `P` and tape size, with
`stripped P` the stream in which every symbol other than `+ - < > [ ] .` and the newline
is deleted: a call on `P` returns exactly when the call on `stripped P` returns, and then
both end the same way with the same output bytes, the same cells and the same pointer;
the two final states differ only in the stream positions (cursor and loop stack), which
correspond under `strippedPos P`. -/
theorem unrecognized_symbols_are_noops (P : List Char) (N : Nat) :
    (∀ n r, bfck n P N 0 = some r →
      ∃ m r', bfck m (stripped P) N 0 = some r' ∧ r' = r.mapPos (strippedPos P) ∧
        r'.observe = r.observe) ∧
    (∀ m r', bfck m (stripped P) N 0 = some r' →
      ∃ n r, bfck n P N 0 = some r ∧ r' = r.mapPos (strippedPos P) ∧
        r'.observe = r.observe) := by
  have hinit : (initState N 0).mapPos (strippedPos P) = initState N 0 := by
    simp [State.mapPos, initState, strippedPos_zero]
  constructor
  · intro n r h
    have := run_stripped_forward P (lastcell N) n (initState N 0) r h
    rw [hinit] at this
    exact ⟨n, _, this, rfl, observe_mapPos _ _⟩
  · intro m r' h
    unfold bfck at h
    rw [← hinit] at h
    obtain ⟨n, r, hn, hr⟩ := run_stripped_backward P (lastcell N) m (initState N 0) r' h
    exact ⟨n, r, hn, hr.symm, by rw [← hr, observe_mapPos]⟩

/-- C7 on the stream `+ x.`, blanks and letter included, on a one-cell tape: the call on
the stripped stream `+.` returns with the same output byte 1. -/
theorem unrecognized_symbols_are_noops_witness :
    stripped "+ x.".toList = "+.".toList ∧
    ∃ m r', bfck m (stripped "+ x.".toList) 1 0 = some r' ∧
      r' = (Result.eof { pos := 4, cells := [1], cellptr := 0, loops := [], loopskip := 0,
                         out := [1] }).mapPos (strippedPos "+ x.".toList) ∧
      r'.observe = some ([1], [1], 0) :=
  ⟨by decide,
   (unrecognized_symbols_are_noops "+ x.".toList 1).1 5
     (Result.eof { pos := 4, cells := [1], cellptr := 0, loops := [], loopskip := 0,
                   out := [1] }) (by decide)⟩

/-! ## C8: one call reads one line -/

/-- C8. One invocation consumes exactly one line and depends on nothing else. For a
stream `pre ++ line ++ newline ++ rest` with no newline in `line`, a call that starts at
the first symbol of `line` and returns in a defined way returns through the newline, with
the cursor immediately after it; a call on any other stream with the same `line` and
newline at the same place gives the same result with the same fuel (in particular the same
output bytes); and a pass that reads a newline leaves the loop with only the cursor
advanced, in skip mode as in normal mode. -/
theorem one_line_per_call (pre line rest : List Char) (N : Nat) (hnl : '\n' ∉ line) :
    (∀ n r, bfck n (pre ++ (line ++ '\n' :: rest)) N pre.length = some r →
      r ≠ Result.undef →
      ∃ st, r = Result.eol st ∧ st.pos = pre.length + line.length + 1) ∧
    (∀ pre2 rest2 : List Char, pre2.length = pre.length → ∀ n,
      bfck n (pre ++ (line ++ '\n' :: rest)) N pre.length
        = bfck n (pre2 ++ (line ++ '\n' :: rest2)) N pre.length) ∧
    (∀ (is : List Char) (lc : Int) (s : State), is[s.pos]? = some '\n' →
      step is lc s = Step.eol { s with pos := s.pos + 1 }) := by
  obtain ⟨hb, hline, hag⟩ := line_shape pre line rest hnl
  have hw := initState_inWindow N pre.length (pre.length + line.length) (Nat.le_add_right _ _)
  refine ⟨?_, ?_, ?_⟩
  · intro n r h hr
    exact run_window _ (lastcell N) pre.length (pre.length + line.length) hb hline n _ r hw h hr
  · intro pre2 rest2 hlen n
    obtain ⟨-, -, hag2⟩ := line_shape pre2 line rest2 hnl
    exact run_agree _ _ (lastcell N) pre.length (pre.length + line.length) hb hline
      (fun p h1 h2 => by rw [hag p h1 h2, hag2 p (by omega) (by omega), hlen]) n _ hw
  · intro is lc s h
    exact step_newline is lc s h

/-- C8 on the second line of the stream `+.`, `[-`, `+`: the call stops after the
newline that follows `[-`, also though it is met in skip mode. -/
theorem one_line_per_call_witness :
    bfck 3 "+.\n[-\n+".toList 1 3 =
      some (Result.eol { pos := 6, cells := [0], cellptr := 0, loops := [], loopskip := 1,
                         out := [] }) ∧
    ∃ st, Result.eol { pos := 6, cells := [0], cellptr := 0, loops := [], loopskip := 1,
                       out := [] } = Result.eol st ∧ st.pos = 3 + 2 + 1 :=
  ⟨by decide,
   (one_line_per_call "+.\n".toList "[-".toList "+".toList 1 (by decide)).1 3 _
     (by decide) (by decide)⟩

/-! ## C9: a last line without newline -/

/-- C9. An unterminated final line is executed like a terminated one. For every symbol
sequence `P` and tape size, the call on `P` and the call on `P` followed by a newline make
the same passes inside the loop, state by state; with the same fuel both have returned or
neither has, both in undefined behaviour or neither, and when they return they have
written the same output bytes and hold the same cells and the same pointer (the first
returns at end of input, the second through the newline). -/
theorem unterminated_line_is_executed (P : List Char) (N n : Nat) :
    (bfck n P N 0).map Result.observe = (bfck n (P ++ ['\n']) N 0).map Result.observe ∧
    steps P (lastcell N) n (initState N 0) = steps (P ++ ['\n']) (lastcell N) n (initState N 0) :=
  run_unterminated P (lastcell N) n (initState N 0)

/-! ## C10: no state leaks between runs -/

/-- C10. No state leaks between runs. Every call of `bfck` starts with all cells zero,
pointer 0, an empty loop stack and skip depth 0. For an input of two lines, `P1`, newline,
`P2` (the second line ending at end of input or at a newline), whenever the driver's first
call returns in a defined way, its second call starts right after the first newline and
reports the output that a call on `P2` alone reports (with the same fuel: returned or not,
undefined or not, and the bytes); the same holds for any tape size. -/
theorem no_state_leak (P1 P2 tail : List Char) (h1 : '\n' ∉ P1) (h2 : '\n' ∉ P2)
    (ht : tail = [] ∨ ∃ more, tail = '\n' :: more) :
    (∀ N p, initState N p = { pos := p, cells := List.replicate N 0, cellptr := 0,
                              loops := [], loopskip := 0, out := [] }) ∧
    (∀ fuel r, call fuel (P1 ++ '\n' :: (P2 ++ tail)) 0 = some r → r ≠ Result.undef →
      callStart fuel (P1 ++ '\n' :: (P2 ++ tail)) 1 = some (P1.length + 1) ∧
      (call fuel (P1 ++ '\n' :: (P2 ++ tail)) 1).map Result.output
        = (bfck fuel P2 TOTALCELLS 0).map Result.output) ∧
    (∀ N n, (bfck n (P1 ++ '\n' :: (P2 ++ tail)) N (P1.length + 1)).map Result.output
        = (bfck n P2 N 0).map Result.output) := by
  have hsecond : ∀ N n,
      (bfck n (P1 ++ '\n' :: (P2 ++ tail)) N (P1.length + 1)).map Result.output
        = (bfck n P2 N 0).map Result.output := by
    intro N n
    rw [bfck_after_line P1 (P2 ++ tail) N n]
    have := congrArg (Option.map (Option.map Prod.fst)) (bfck_line_alone P2 tail N n h2 ht)
    simp only [Option.map_map] at this ⊢
    have e : (Option.map Prod.fst ∘ Result.observe) = Result.output := by
      funext r
      exact (output_eq_observe r).symm
    rw [e] at this
    rw [← this]
    congr 1
    funext r
    exact output_mapPos _ r
  refine ⟨fun _ _ => rfl, ?_, hsecond⟩
  intro fuel r hr hdef
  have hr' : bfck fuel (P1 ++ '\n' :: (P2 ++ tail)) TOTALCELLS 0 = some r := by
    simpa [call, callStart] using hr
  obtain ⟨st, hst, hpos⟩ := (show ∃ st, r = Result.eol st ∧ st.pos = 0 + P1.length + 1 from by
    obtain ⟨hb, hline, -⟩ := line_shape [] P1 (P2 ++ tail) h1
    exact run_window _ (lastcell TOTALCELLS) 0 (0 + P1.length) hb hline fuel _ r
      (initState_inWindow _ 0 _ (Nat.zero_le _)) hr' hdef)
  have hstart : callStart fuel (P1 ++ '\n' :: (P2 ++ tail)) 1 = some (P1.length + 1) := by
    simp only [callStart, hr', hst]
    rw [hpos, Nat.zero_add]
  refine ⟨hstart, ?_⟩
  simp only [call, hstart, Option.some_bind]
  exact hsecond TOTALCELLS fuel

/-- The first call of the driver on the sample input of the witness of C10. -/
theorem sample_first_call :
    call 5 ("+[".toList ++ '\n' :: ("+.".toList ++ [])) 0 =
      some (Result.eol { pos := 3, cells := (List.replicate TOTALCELLS 0).set 0 1,
                         cellptr := 0, loops := [2], loopskip := 0, out := [] }) := by
  have hN : ∀ N, 0 < N → bfck 5 ['+', '[', '\n', '+', '.'] N 0 =
      some (Result.eol { pos := 3, cells := (List.replicate N 0).set 0 1,
                         cellptr := 0, loops := [2], loopskip := 0, out := [] }) := by
    intro N hN
    obtain ⟨n, rfl⟩ := Nat.exists_eq_succ_of_ne_zero (Nat.pos_iff_ne_zero.mp hN)
    simp [bfck, run, step, body, initState, List.replicate_succ]
  have hp : "+[".toList ++ '\n' :: ("+.".toList ++ []) = ['+', '[', '\n', '+', '.'] := rfl
  rw [hp]
  simp only [call, callStart, Option.some_bind]
  exact hN TOTALCELLS (by decide)

/-- C10 on the input `+[`, newline, `+.`: the first line leaves cell 0 at 1 and an open
loop; the second call starts at position 3 and reports what `+.` alone reports. -/
theorem no_state_leak_witness :
    callStart 5 ("+[".toList ++ '\n' :: ("+.".toList ++ [])) 1 = some ("+[".toList.length + 1) ∧
    (call 5 ("+[".toList ++ '\n' :: ("+.".toList ++ [])) 1).map Result.output
      = (bfck 5 "+.".toList TOTALCELLS 0).map Result.output :=
  (no_state_leak "+[".toList "+.".toList [] (by decide) (by decide) (Or.inl rfl)).2.1 5
    (Result.eol { pos := 3, cells := (List.replicate TOTALCELLS 0).set 0 1, cellptr := 0,
                  loops := [2], loopskip := 0, out := [] })
    sample_first_call (fun h => Result.noConfusion h)

/-! ## C11: what the driver writes -/

/-- A call on a stream read `d` symbols further down, started at any position. -/
theorem bfck_shift (is rest : List Char) (N d : Nat) (h : ∀ p, is[p + d]? = rest[p]?)
    (n p : Nat) :
    bfck n is N (p + d) = (bfck n rest N p).map (Result.mapPos (· + d)) := by
  have := run_shift is rest (lastcell N) d h n (initState N p)
  unfold bfck
  rw [← this]
  rfl

theorem getElem?_after_line (P1 rest : List Char) (p : Nat) :
    (P1 ++ '\n' :: rest)[p + (P1.length + 1)]? = rest[p]? := by
  have e : p + (P1.length + 1) = P1.length + (p + 1) := by omega
  rw [e, getElem?_append_add]
  simp

/-- The driver's loop on the text after the first line is the driver's loop on the
rest of the text. -/
theorem mainLoop_shift (fuel : Nat) (P1 rest : List Char) (c : Nat) :
    ∀ p, mainLoop fuel (P1 ++ '\n' :: rest) c (p + (P1.length + 1)) = mainLoop fuel rest c p := by
  induction c with
  | zero => intro p; rfl
  | succ c ih =>
    intro p
    simp only [mainLoop]
    rw [bfck_shift _ rest TOTALCELLS (P1.length + 1) (getElem?_after_line P1 rest) fuel p]
    cases hb : bfck fuel rest TOTALCELLS p with
    | none => rfl
    | some r =>
      cases r with
      | eol st =>
        simp only [Option.map_some', Result.mapPos, State.mapPos]
        rw [ih st.pos]
      | eof st => rfl
      | undef => rfl

/-- More calls allowed do not change what the driver has written when it ends. -/
theorem mainLoop_mono (fuel : Nat) (is : List Char) (c k : Nat) :
    ∀ p o, mainLoop fuel is c p = some o → mainLoop fuel is (c + k) p = some o := by
  induction c with
  | zero => intro p o h; simp [mainLoop] at h
  | succ c ih =>
    intro p o h
    rw [Nat.succ_add]
    simp only [mainLoop] at h ⊢
    cases hb : bfck fuel is TOTALCELLS p with
    | none => rw [hb] at h; simp at h
    | some r =>
      cases r with
      | eol st =>
        rw [hb] at h
        simp only [Option.map_eq_some'] at h ⊢
        obtain ⟨os, hos, ho⟩ := h
        exact ⟨os, ih st.pos os hos, ho⟩
      | eof st => rw [hb] at h; exact h
      | undef => rw [hb] at h; simp at h

/-- A stream without newline is never left through `break`. -/
theorem run_no_eol (is : List Char) (lc : Int) (hnl : '\n' ∉ is) (n : Nat) :
    ∀ s st, run is lc n s ≠ some (Result.eol st) := by
  induction n with
  | zero => intro s st h; simp [run] at h
  | succ n ih =>
    intro s st h
    simp only [run] at h
    cases hs : step is lc s with
    | next u => rw [hs] at h; exact ih u st h
    | eol u =>
      unfold step at hs
      cases hc : is[s.pos]? with
      | none => rw [hc] at hs; simp at hs
      | some c =>
        rw [hc] at hs
        obtain ⟨h1, -⟩ := (body_leave_inv lc c _ u).1 hs
        subst h1
        exact hnl (List.getElem?_mem hc)
    | eof u => rw [hs] at h; simp at h
    | undef => rw [hs] at h; simp at h

/-- The call on the first line of a text: it ends at the newline, having written what the
line alone writes. -/
theorem first_call (fuel : Nat) (P rest : List Char) (hP : '\n' ∉ P) (o : List Nat)
    (h : programOutput fuel P = some o) :
    ∃ st, bfck fuel (P ++ '\n' :: rest) TOTALCELLS 0 = some (Result.eol st) ∧
      st.pos = P.length + 1 ∧ st.out = o := by
  have hobs := bfck_line_alone P ('\n' :: rest) TOTALCELLS fuel hP (Or.inr ⟨rest, rfl⟩)
  unfold programOutput at h
  cases hb : bfck fuel P TOTALCELLS 0 with
  | none => rw [hb] at h; simp at h
  | some r =>
    rw [hb] at h hobs
    simp only [Option.some_bind] at h
    cases hb' : bfck fuel (P ++ '\n' :: rest) TOTALCELLS 0 with
    | none => rw [hb'] at hobs; simp at hobs
    | some r' =>
      rw [hb'] at hobs
      simp only [Option.map_some', Option.some.injEq] at hobs
      have hout : r'.output = some o := by
        rw [output_eq_observe, hobs, ← output_eq_observe, h]
      have hdef : r' ≠ Result.undef := by
        intro e
        rw [e] at hout
        simp [Result.output] at hout
      obtain ⟨hbn, hline, -⟩ := line_shape [] P rest hP
      obtain ⟨st, hst, hpos⟩ := run_window _ (lastcell TOTALCELLS) 0 (0 + P.length) hbn hline
        fuel _ r' (initState_inWindow _ 0 _ (Nat.zero_le _)) hb' hdef
      subst hst
      refine ⟨st, rfl, by omega, ?_⟩
      simpa [Result.output] using hout

/-- The driver on a text that is one line followed by more text. -/
theorem main_cons (fuel : Nat) (P rest : List Char) (hP : '\n' ∉ P) (o os : List Nat)
    (h : programOutput fuel P = some o) (hrest : main fuel rest = some os) :
    main fuel (P ++ '\n' :: rest) = some (o ++ 10 :: os) := by
  obtain ⟨st, hst, hpos, hout⟩ := first_call fuel P rest hP o h
  unfold main at hrest ⊢
  simp only [mainLoop, hst]
  have e : (P ++ '\n' :: rest).length = (rest.length + 1) + P.length := by
    simp; omega
  have := mainLoop_shift fuel P rest ((rest.length + 1) + P.length) 0
  rw [Nat.zero_add] at this
  rw [hpos, e, this, mainLoop_mono fuel rest _ P.length 0 os hrest, hout]
  rfl

/-- The driver on a text without newline. -/
theorem main_last (fuel : Nat) (P : List Char) (hP : '\n' ∉ P) (o : List Nat)
    (h : programOutput fuel P = some o) : main fuel P = some o := by
  unfold programOutput at h
  unfold main
  simp only [mainLoop]
  cases hb : bfck fuel P TOTALCELLS 0 with
  | none => rw [hb] at h; simp at h
  | some r =>
    rw [hb] at h
    cases r with
    | eol st => exact absurd hb (run_no_eol P _ hP fuel _ st)
    | eof st => simpa [Result.output] using h
    | undef => simp [Result.output] at h

/-- The first line of a text and the rest, as `splitLines` cuts them. -/
theorem splitLines_spec (is : List Char) :
    ((splitLines is).1 = [] → '\n' ∉ is ∧ (splitLines is).2 = is) ∧
    (∀ l ls, (splitLines is).1 = l :: ls →
      ∃ rest, is = l ++ '\n' :: rest ∧ '\n' ∉ l ∧ (splitLines rest).1 = ls ∧
        (splitLines rest).2 = (splitLines is).2) := by
  induction is with
  | nil => simp [splitLines]
  | cons c cs ih =>
    obtain ⟨ih1, ih2⟩ := ih
    by_cases hc : c = '\n'
    · subst hc
      simp only [splitLines, if_true]
      refine ⟨fun h => by simp at h, ?_⟩
      intro l ls h
      simp only [List.cons.injEq] at h
      obtain ⟨rfl, rfl⟩ := h
      exact ⟨cs, rfl, by simp, rfl, rfl⟩
    · simp only [splitLines, if_neg hc]
      cases hs : (splitLines cs).1 with
      | nil =>
        simp only
        obtain ⟨h1, h2⟩ := ih1 hs
        refine ⟨fun _ => ⟨?_, by rw [h2]⟩, fun l ls h => by simp at h⟩
        intro hm
        rcases List.mem_cons.mp hm with e | e
        · exact hc e.symm
        · exact h1 e
      | cons l0 ls0 =>
        simp only
        refine ⟨fun h => by simp at h, ?_⟩
        intro l ls h
        simp only [List.cons.injEq] at h
        obtain ⟨rfl, rfl⟩ := h
        obtain ⟨rest, h1, h2, h3, h4⟩ := ih2 l0 ls0 hs
        refine ⟨rest, by rw [h1]; rfl, ?_, h3, h4⟩
        intro hm
        rcases List.mem_cons.mp hm with e | e
        · exact hc e.symm
        · exact h2 e

/-- The program `+.` alone writes the byte 1. -/
theorem sample_program_output : programOutput 3 "+.".toList = some [1] := by
  have hN : ∀ N, 0 < N → (bfck 3 ['+', '.'] N 0).bind Result.output = some [1] := by
    intro N hN
    obtain ⟨n, rfl⟩ := Nat.exists_eq_succ_of_ne_zero (Nat.pos_iff_ne_zero.mp hN)
    simp [bfck, run, step, body, initState, List.replicate_succ, Result.output]
  exact hN TOTALCELLS (by decide)

/-- C11 fails on the text `+.` without final newline: the driver writes the byte 1 that
the program writes and nothing after it; no line terminator follows the program's
output. -/
theorem driver_output_counterexample :
    splitLines "+.".toList = ([], "+.".toList) ∧
    programOutput 3 "+.".toList = some [1] ∧
    main 3 "+.".toList = some [1] ∧
    main 3 "+.".toList ≠ some [1, 10] := by
  have hp := sample_program_output
  have hm := main_last 3 "+.".toList (by decide) [1] hp
  refine ⟨by decide, hp, hm, ?_⟩
  rw [hm]
  decide

/-- C11, amended. For every input text whose programs, each run alone, all return in a
defined way (within the fuel given to each call), the driver returns and its total output
is, for each input line that is ended by a newline, in order, that program's output bytes
followed by exactly one line terminator written by the driver, and then, for the final
line that is ended by the end of input, that program's output bytes with no line
terminator after them (nothing at all when the text is empty or ends in a newline). -/
theorem driver_output (fuel : Nat) (is : List Char) (o : List Nat)
    (h : describedOutput fuel (splitLines is).1 (splitLines is).2 = some o) :
    main fuel is = some o := by
  have key : ∀ (lines : List (List Char)) (is : List Char) (o : List Nat),
      (splitLines is).1 = lines →
      describedOutput fuel lines (splitLines is).2 = some o → main fuel is = some o := by
    intro lines
    induction lines with
    | nil =>
      intro is o hl hd
      obtain ⟨h1, h2⟩ := (splitLines_spec is).1 hl
      rw [h2] at hd
      exact main_last fuel is h1 o hd
    | cons l ls ih =>
      intro is o hl hd
      obtain ⟨rest, h1, h2, h3, h4⟩ := (splitLines_spec is).2 l ls hl
      simp only [describedOutput] at hd
      cases hp : programOutput fuel l with
      | none => rw [hp] at hd; simp at hd
      | some o1 =>
        rw [hp] at hd
        cases hr : describedOutput fuel ls (splitLines is).2 with
        | none => rw [hr] at hd; simp at hd
        | some os =>
          rw [hr] at hd
          simp only [Option.some.injEq] at hd
          rw [← h4] at hr
          rw [h1, ← hd]
          exact main_cons fuel l rest h2 o1 os hp (ih rest os h3 hr)
  exact key _ is o rfl h

/-- C11, amended, on the text `+.`, newline, `+.`: the driver writes the byte 1, a
newline, and the byte 1, and no newline after the last line. -/
theorem driver_output_witness : main 3 "+.\n+.".toList = some [1, 10, 1] :=
  driver_output 3 "+.\n+.".toList [1, 10, 1] (by
    have hs : splitLines "+.\n+.".toList = (["+.".toList], "+.".toList) := by decide
    rw [hs]
    simp only [describedOutput, sample_program_output]
    rfl)

/-! ## C12: a closing bracket with nothing open -/

/-- C12. Malformed-bracket failure. For every state in normal mode with an empty loop
stack, a pass that reads `]` is undefined behaviour: with a nonzero current cell it reads
`loops.back()`, with a zero cell it calls `loops.pop_back()`, on the empty vector (and
with the pointer outside the tape the cell read itself is undefined); it is never a pass
that goes on, whereas with a non-empty loop stack and the pointer inside the tape the
pass does go on. A `]` read in skip mode does not look at the loop stack (nor at the cells):
whatever they hold, the pass only advances the cursor and decrements the skip depth. -/
theorem unmatched_close_is_undefined (is : List Char) (lc : Int) (s : State)
    (hc : is[s.pos]? = some ']') :
    (s.loopskip = 0 → s.loops = [] → step is lc s = Step.undef) ∧
    (s.loopskip = 0 → s.loops ≠ [] → ∀ v, s.cells[s.cellptr]? = some v →
      ∃ t, step is lc s = Step.next t) ∧
    (s.loopskip ≠ 0 → step is lc s = Step.next { s with
      pos := s.pos + 1, loopskip := s.loopskip - 1 }) := by
  refine ⟨?_, ?_, ?_⟩
  · intro hk hl
    unfold step
    rw [hc]
    cases hv : s.cells[s.cellptr]? with
    | none => simp [body, hk, hv]
    | some v => by_cases h0 : v = 0 <;> simp [body, hk, hv, hl, h0]
  · intro hk hl v hv
    unfold step
    rw [hc]
    cases hg : s.loops.getLast? with
    | none => exact absurd (List.getLast?_eq_none_iff.mp hg) hl
    | some p => by_cases h0 : v = 0 <;> simp [body, hk, hv, hl, hg, h0]
  · intro hk
    rw [step_skip is lc s ']' hc (by decide) hk]
    simp

/-- C12 on the stream `]`: from a fresh tape the pass is undefined; in skip mode it only
lowers the skip depth. -/
theorem unmatched_close_is_undefined_witness :
    step "]".toList (lastcell 1) (initState 1 0) = Step.undef ∧
    step "]".toList (lastcell 1) { initState 1 0 with loopskip := 2 } =
      Step.next { initState 1 0 with pos := 1, loopskip := 1 } :=
  ⟨(unmatched_close_is_undefined "]".toList (lastcell 1) (initState 1 0) rfl).1 rfl rfl,
   (unmatched_close_is_undefined "]".toList (lastcell 1)
      { initState 1 0 with loopskip := 2 } rfl).2.2 (by decide)⟩

/-! ## C13: the loop stack follows the open loops -/

/-- C13. Loop-stack discipline. For every newline-free line `P` with well-nested brackets
(read up to the end of input or up to a newline) and every tape size, after any number of
passes of the call the cursor is on the line or right after it, and whenever the skip
depth is 0 the loop stack is the list of the loops open around the cursor, outermost
first, each entry being the position immediately after its `[`. Consequently, when the
call returns at the newline or at end of input, the loop stack is empty and the skip depth
is 0. -/
theorem loop_stack_discipline (P tail : List Char) (N : Nat) (hbal : balanced P = true)
    (hnl : '\n' ∉ P) (ht : tail = [] ∨ ∃ more, tail = '\n' :: more) :
    (∀ n s, steps (P ++ tail) (lastcell N) n (initState N 0) = some s →
      s.pos ≤ P.length ∧ (s.loopskip = 0 → s.loops = enclosing P s.pos)) ∧
    (∀ n st, (bfck n (P ++ tail) N 0 = some (Result.eol st) ∨
        bfck n (P ++ tail) N 0 = some (Result.eof st)) →
      st.loops = [] ∧ st.loopskip = 0) := by
  have hscan : scanDepth 0 P = some 0 := by simpa [balanced] using hbal
  have hinv : ∀ n s, steps (P ++ tail) (lastcell N) n (initState N 0) = some s →
      stackInv P s := fun n s h =>
    steps_invariant _ _ (stackInv P)
      (fun s t hs hst => step_stackInv P tail _ 0 hscan ht s t hs hst) n _ s
      (initState_stackInv P N) h
  have hend : (enclosing P P.length).length = 0 := by
    have := (enclosing_depth P 0 hscan P.length (le_refl _)).1
    rw [List.take_length, hscan] at this
    exact (Option.some.inj this).symm
  have hfinal : ∀ s, stackInv P s → s.pos = P.length → s.loops = [] ∧ s.loopskip = 0 := by
    intro s ⟨_, h2, h3⟩ hp
    rw [hp, hend] at h2 h3
    exact ⟨by simpa using h3, by omega⟩
  constructor
  · intro n s h
    obtain ⟨h1, h2, h3⟩ := hinv n s h
    refine ⟨h1, fun h0 => ?_⟩
    rw [h3, h0, Nat.sub_zero, List.take_length]
  · intro n st h
    have hrun : ∃ r, bfck n (P ++ tail) N 0 = some r ∧
        (r = Result.eol st ∨ r = Result.eof st) := by
      rcases h with h | h
      · exact ⟨_, h, Or.inl rfl⟩
      · exact ⟨_, h, Or.inr rfl⟩
    obtain ⟨r, hr, hkind⟩ := hrun
    obtain ⟨k, s, hk, hlast⟩ := run_last_step _ _ n _ r hr
    have hs := hinv k s hk
    rcases hlast with ⟨st', h1, h2⟩ | ⟨st', h1, h2⟩ | ⟨h1, h2⟩
    · obtain ⟨hc, hst⟩ := (step_leave _ _ s st').1 h1
      have hp : s.pos = P.length := by
        rcases Nat.lt_or_ge s.pos P.length with hlt | hge
        · rw [List.getElem?_append_left hlt] at hc
          exact absurd (List.getElem?_mem hc) hnl
        · have := hs.1
          omega
      have hst' : st = st' := by
        rcases hkind with e | e <;> rw [e] at h2 <;> simp at h2
        exact h2
      rw [hst', hst]
      exact hfinal s hs hp
    · obtain ⟨hc, hst⟩ := (step_leave _ _ s st').2 h1
      have hp : s.pos = P.length := by
        rcases Nat.lt_or_ge s.pos P.length with hlt | hge
        · rw [List.getElem?_append_left hlt, List.getElem?_eq_getElem hlt] at hc
          simp at hc
        · have := hs.1
          omega
      have hst' : st = st' := by
        rcases hkind with e | e <;> rw [e] at h2 <;> simp at h2
        exact h2
      rw [hst', hst]
      exact hfinal s hs hp
    · rcases hkind with e | e <;> rw [e] at h2 <;> simp at h2

/-- C13 on the line `+[[-]]`: after three passes the cursor is inside both loops and the
loop stack holds the positions after the two `[`; at end of input it is empty. -/
theorem loop_stack_discipline_witness :
    steps "+[[-]]".toList (lastcell 1) 3 (initState 1 0) =
      some { pos := 3, cells := [1], cellptr := 0, loops := [2, 3], loopskip := 0,
             out := [] } ∧
    enclosing "+[[-]]".toList 3 = [2, 3] ∧
    bfck 8 "+[[-]]".toList 1 0 =
      some (Result.eof { pos := 6, cells := [0], cellptr := 0, loops := [], loopskip := 0,
                         out := [] }) ∧
    (3 ≤ "+[[-]]".toList.length ∧ ((0 : Nat) = 0 → [2, 3] = enclosing "+[[-]]".toList 3)) ∧
    (([] : List Nat) = [] ∧ (0 : Nat) = 0) :=
  ⟨by decide, by decide, by decide,
   (loop_stack_discipline "+[[-]]".toList [] 1 (by decide) (by decide) (Or.inl rfl)).1 3
     { pos := 3, cells := [1], cellptr := 0, loops := [2, 3], loopskip := 0, out := [] }
     (by decide),
   (loop_stack_discipline "+[[-]]".toList [] 1 (by decide) (by decide) (Or.inl rfl)).2 8
     { pos := 6, cells := [0], cellptr := 0, loops := [], loopskip := 0, out := [] }
     (Or.inr (by decide))⟩

/-! ## C14: the pointer stays inside the tape -/

/-- C14. Tape indexing is in bounds by construction. For every positive tape size `N`,
every stream and every start position, after any number of passes of a call the tape
still has `N` cells and the pointer, a 16-bit value, is below `N`: the cell under the
pointer exists, so no pass reads or writes outside the tape. -/
theorem pointer_in_bounds (N : Nat) (hN : 0 < N) (is : List Char) (pos n : Nat) (s : State)
    (h : steps is (lastcell N) n (initState N pos) = some s) :
    s.cellptr < N ∧ s.cellptr < 65536 ∧ s.cells.length = N ∧
    ∃ v, s.cells[s.cellptr]? = some v := by
  have hinv := steps_invariant is (lastcell N)
    (fun s => s.cellptr < N ∧ s.cellptr < 65536 ∧ s.cells.length = N)
    (fun s t hs hst => by
      obtain ⟨c, -, hb⟩ := step_next_body is _ s t hst
      exact body_tape_inv N hN c _ t hb hs)
    n (initState N pos) s ⟨hN, by norm_num [initState], by simp [initState]⟩ h
  obtain ⟨h1, h2, h3⟩ := hinv
  have hlt : s.cellptr < s.cells.length := by omega
  exact ⟨h1, h2, h3, ⟨_, List.getElem?_eq_getElem hlt⟩⟩

/-- C14 on a two-cell tape after the three passes of `<<>`: the pointer is 1. -/
theorem pointer_in_bounds_witness :
    steps "<<>".toList (lastcell 2) 3 (initState 2 0) =
      some { initState 2 0 with pos := 3, cellptr := 1 } ∧
    ((1 : Nat) < 2 ∧ (1 : Nat) < 65536 ∧ ([0, 0] : List Nat).length = 2 ∧
      ∃ v, ([0, 0] : List Nat)[1]? = some v) :=
  ⟨by decide,
   pointer_in_bounds 2 (by decide) "<<>".toList 0 3
     { initState 2 0 with pos := 3, cellptr := 1 } (by decide)⟩

/-! ## C15: what `]` does when the loop goes on -/

/-- A pass adds to the loop stack at most the cursor, and only when it read `[`. -/
theorem body_push_inv (lc : Int) (c : Char) (s t : State) (h : body lc c s = Step.next t) :
    ∀ q, q ∈ t.loops → q ∈ s.loops ∨ (q = s.pos ∧ c = '[') := by
  by_cases hk : s.loopskip = 0 <;> cases hv : s.cells[s.cellptr]? <;>
    cases hl : s.loops.getLast? <;>
    rcases sym_cases c with rfl | rfl | rfl | rfl | rfl | rfl | rfl | rfl |
      ⟨h1, h2, h3, h4, h5, h6, h7, h8⟩ <;>
    simp [body, hk, hv, hl, *] at h <;>
    (try split_ifs at h) <;>
    (try simp at h) <;>
    subst h <;>
    (try simp_all)
  all_goals exact fun q hq => List.mem_of_mem_dropLast hq

/-- Every entry of the loop stack of a call is the position right after a `[`. -/
theorem loops_after_open (is : List Char) (lc : Int) (N pos n : Nat) (s : State)
    (h : steps is lc n (initState N pos) = some s) :
    ∀ q, q ∈ s.loops → 0 < q ∧ is[q - 1]? = some '[' := by
  refine steps_invariant is lc (fun s => ∀ q, q ∈ s.loops → 0 < q ∧ is[q - 1]? = some '[')
    (fun s t hs hst => ?_) n (initState N pos) s (by simp [initState]) h
  obtain ⟨c, hc, hb⟩ := step_next_body is lc s t hst
  intro q hq
  rcases body_push_inv lc c _ t hb q hq with h1 | ⟨h1, h2⟩
  · exact hs q h1
  · simp only at h1
    subst h1 h2
    exact ⟨Nat.succ_pos _, by simpa using hc⟩

/-- C15 fails on `++[-]` with one cell: when `]` is first read the cell holds 1 and the
loop stack is `[3]`; the pass sets the cursor to 3, where the symbol is `-`, not the `[`
(which is at 2); the `[` is not read again, and after the next pass the loop stack is
still `[3]`: no second entry is pushed. -/
theorem loop_reentry_counterexample :
    steps "++[-]".toList (lastcell 1) 4 (initState 1 0) =
      some { pos := 4, cells := [1], cellptr := 0, loops := [3], loopskip := 0, out := [] } ∧
    step "++[-]".toList (lastcell 1)
        { pos := 4, cells := [1], cellptr := 0, loops := [3], loopskip := 0, out := [] } =
      Step.next { pos := 3, cells := [1], cellptr := 0, loops := [3], loopskip := 0,
                  out := [] } ∧
    "++[-]".toList[3]? = some '-' ∧ "++[-]".toList[2]? = some '[' ∧
    steps "++[-]".toList (lastcell 1) 6 (initState 1 0) =
      some { pos := 4, cells := [0], cellptr := 0, loops := [3], loopskip := 0, out := [] } := by
  decide

/-- C15, amended. Loop re-entry does not re-push. Whenever, in a call, `]` is read in
normal mode with a nonzero current cell and a non-empty loop stack, the pass changes
nothing but the cursor: the top entry is not popped, nothing is pushed, and the cursor is
set to the top entry, which is the position immediately after a `[` (the next symbol
read is the first symbol of the loop body, not the `[`). -/
theorem loop_reentry_rewinds (is : List Char) (N pos n : Nat) (s : State) (v p : Nat)
    (hrun : steps is (lastcell N) n (initState N pos) = some s)
    (hc : is[s.pos]? = some ']') (hk : s.loopskip = 0)
    (hv : s.cells[s.cellptr]? = some v) (hv0 : v ≠ 0) (hl : s.loops.getLast? = some p) :
    step is (lastcell N) s = Step.next { s with pos := p } ∧
    0 < p ∧ is[p - 1]? = some '[' := by
  constructor
  · unfold step
    rw [hc]
    simp [body, hk, hv, hv0, hl]
  · exact loops_after_open is _ N pos n s hrun p (List.mem_of_getLast?_eq_some hl)

/-- C15, amended, on `++[-]` with one cell, at the first `]`. -/
theorem loop_reentry_rewinds_witness :
    step "++[-]".toList (lastcell 1)
        { pos := 4, cells := [1], cellptr := 0, loops := [3], loopskip := 0, out := [] } =
      Step.next { pos := 3, cells := [1], cellptr := 0, loops := [3], loopskip := 0,
                  out := [] } ∧
    0 < 3 ∧ "++[-]".toList[3 - 1]? = some '[' :=
  loop_reentry_rewinds "++[-]".toList 1 0 4
    { pos := 4, cells := [1], cellptr := 0, loops := [3], loopskip := 0, out := [] } 1 3
    (by decide) (by decide) rfl rfl (by decide) rfl

/-! ## C16: a loop that never reaches zero -/

/-- The state in which `+[]` stays: cursor on the `]`, cell 0 at 1, one loop entry. -/
theorem forever_steps (tail : List Char) (lc : Int) (tl : List Nat) (n : Nat) :
    steps (foreverProgram tail) lc n
        { pos := 2, cells := 1 :: tl, cellptr := 0, loops := [2], loopskip := 0, out := [] } =
      some { pos := 2, cells := 1 :: tl, cellptr := 0, loops := [2], loopskip := 0,
             out := [] } := by
  induction n with
  | zero => rfl
  | succ n ih =>
    simp only [steps]
    have : step (foreverProgram tail) lc
        { pos := 2, cells := 1 :: tl, cellptr := 0, loops := [2], loopskip := 0, out := [] } =
        Step.next { pos := 2, cells := 1 :: tl, cellptr := 0, loops := [2], loopskip := 0,
                    out := [] } := by
      simp [step, body, foreverProgram]
    rw [this]
    exact ih

/-- A run that is still in the loop after `n` passes has not returned. -/
theorem run_none_of_steps (is : List Char) (lc : Int) (n : Nat) :
    ∀ s t : State, steps is lc n s = some t → run is lc n s = none := by
  induction n with
  | zero => intro s t _; rfl
  | succ n ih =>
    intro s t h
    simp only [steps] at h
    simp only [run]
    cases hs : step is lc s with
    | next u => rw [hs] at h; exact ih u t h
    | eol u => rw [hs] at h; simp at h
    | eof u => rw [hs] at h; simp at h
    | undef => rw [hs] at h; simp at h

/-- C16. Non-termination of a loop that never reaches zero. For every positive tape
size, whatever follows `+[]` in the stream, the call on `+[]` has not returned after any
number `n` of passes: all `n` passes stay in the loop, and from the second pass on the
state is always the same, with the cursor on the `]`, cell 0 equal to 1 and a loop stack
of length 1. For every tape size, 0 included, no number of passes ends the call at a
newline or at end of input. -/
theorem forever_loop_never_ends (tail : List Char) :
    (∀ N n, 0 < N → bfck n (foreverProgram tail) N 0 = none ∧
      ∃ s, steps (foreverProgram tail) (lastcell N) n (initState N 0) = some s ∧
        (2 ≤ n → s = { pos := 2, cells := (List.replicate N 0).set 0 1, cellptr := 0,
                       loops := [2], loopskip := 0, out := [] })) ∧
    (∀ N n st, bfck n (foreverProgram tail) N 0 ≠ some (Result.eol st) ∧
      bfck n (foreverProgram tail) N 0 ≠ some (Result.eof st)) := by
  have hpos : ∀ N n, 0 < N →
      ∃ s, steps (foreverProgram tail) (lastcell N) n (initState N 0) = some s ∧
        (2 ≤ n → s = { pos := 2, cells := (List.replicate N 0).set 0 1, cellptr := 0,
                       loops := [2], loopskip := 0, out := [] }) := by
    intro N n hN
    obtain ⟨m, rfl⟩ := Nat.exists_eq_succ_of_ne_zero (Nat.pos_iff_ne_zero.mp hN)
    rcases Nat.lt_or_ge n 2 with h | h
    · have : n = 0 ∨ n = 1 := by omega
      rcases this with rfl | rfl
      · exact ⟨_, rfl, fun h => absurd h (by decide)⟩
      · refine ⟨{ initState (m + 1) 0 with pos := 1, cells := 1 :: List.replicate m 0 }, ?_,
          fun h => absurd h (by decide)⟩
        simp [steps, step, body, foreverProgram, initState, List.replicate_succ]
    · obtain ⟨k, rfl⟩ : ∃ k, n = 2 + k := ⟨n - 2, by omega⟩
      have h2 : steps (foreverProgram tail) (lastcell (m + 1)) 2 (initState (m + 1) 0) =
          some { pos := 2, cells := 1 :: List.replicate m 0, cellptr := 0, loops := [2],
                 loopskip := 0, out := [] } := by
        simp [steps, step, body, foreverProgram, initState, List.replicate_succ]
      refine ⟨_, ?_, fun _ => rfl⟩
      rw [steps_add, h2]
      simp only [Option.some_bind, List.replicate_succ, List.set_cons_zero]
      exact forever_steps tail _ _ k
  constructor
  · intro N n hN
    obtain ⟨s, hs, h2⟩ := hpos N n hN
    exact ⟨run_none_of_steps _ _ n _ s hs, s, hs, h2⟩
  · intro N n st
    rcases Nat.eq_zero_or_pos N with rfl | hN
    · cases n with
      | zero => simp [bfck, run]
      | succ n => simp [bfck, run, step, body, foreverProgram, initState]
    · obtain ⟨s, hs, -⟩ := hpos N n hN
      have := run_none_of_steps _ _ n _ s hs
      unfold bfck
      rw [this]
      simp

/-- C16 on `+[]` alone with one cell: after 1000 passes the call has not returned. -/
theorem forever_loop_never_ends_witness : bfck 1000 (foreverProgram []) 1 0 = none :=
  ((forever_loop_never_ends []).1 1 1000 (by decide)).1

/-! ## C17: `bfck` and the structured semantics -/

/-- More fuel does not change the result of a reference execution that has ended. -/
theorem refExec_mono (N : Nat) (f : Nat) :
    ∀ (T : Prog) (m m' : Machine), refExec N f T m = some m' →
      refExec N (f + 1) T m = some m' := by
  induction f with
  | zero => intro T m m' h; simp [refExec] at h
  | succ f ih =>
    intro T m m' h
    cases T with
    | done => simpa [refExec] using h
    | sym c rest =>
      simp only [refExec] at h ⊢
      exact ih _ _ _ h
    | loop b rest =>
      rw [refExec] at h ⊢
      by_cases h0 : m.cells.getD m.ptr 0 ≠ 0
      · rw [if_pos h0] at h ⊢
        cases hb : refExec N f b m with
        | none => rw [hb] at h; simp at h
        | some m1 =>
          rw [hb] at h
          simp only [Option.some_bind] at h
          rw [ih b m m1 hb]
          simp only [Option.some_bind]
          exact ih _ _ _ h
      · rw [if_neg h0] at h ⊢
        exact ih _ _ _ h

/-- The text of a plain tree is balanced from any depth, and has no newline. -/
theorem text_scan (T : Prog) (h : T.plain = true) :
    (∀ d, scanDepth d T.text = some d) ∧ '\n' ∉ T.text := by
  induction T with
  | done => exact ⟨fun d => rfl, by simp [Prog.text]⟩
  | sym c rest ih =>
    simp only [Prog.plain, Bool.and_eq_true, bne_iff_ne, ne_eq] at h
    obtain ⟨⟨⟨h1, h2⟩, h3⟩, h4⟩ := h
    obtain ⟨ih1, ih2⟩ := ih h4
    refine ⟨fun d => ?_, ?_⟩
    · simp only [Prog.text, scanDepth, if_neg h1, if_neg h2]
      exact ih1 d
    · simp only [Prog.text, List.mem_cons, not_or]
      exact ⟨fun e => h3 e.symm, ih2⟩
  | loop b rest ihb ihr =>
    simp only [Prog.plain, Bool.and_eq_true] at h
    obtain ⟨hb1, hb2⟩ := ihb h.1
    obtain ⟨hr1, hr2⟩ := ihr h.2
    refine ⟨fun d => ?_, ?_⟩
    · simp only [Prog.text, scanDepth, if_true]
      rw [scanDepth_append, hb1 (d + 1)]
      simp only [Option.some_bind, scanDepth]
      have h12 : ¬ (']' = '[') := by decide
      simp only [if_neg h12, if_true, Nat.add_one_ne_zero, if_false, Nat.add_sub_cancel]
      exact hr1 d
    · simp only [Prog.text, List.mem_cons, List.mem_append, not_or]
      exact ⟨by decide, hb2, by decide, hr2⟩

/-- On a tape of at most 65536 cells a plain symbol read in normal mode does to the
interpreter state what the reference semantics says. -/
theorem body_plain (N : Nat) (hN : 0 < N) (hmax : N ≤ 65536) (c : Char) (m : Machine)
    (pos : Nat) (L : List Nat) (h1 : c ≠ '[') (h2 : c ≠ ']') (h3 : c ≠ '\n')
    (hp : m.ptr < N) (hl : m.cells.length = N) :
    body (lastcell N) c (m.state pos L) = Step.next ((refSym N c m).state pos L) ∧
    (refSym N c m).ptr < N ∧ (refSym N c m).cells.length = N := by
  have hlc := lastcell_small N hN hmax
  obtain ⟨v, hv⟩ : ∃ v, m.cells[m.ptr]? = some v :=
    ⟨_, List.getElem?_eq_getElem (by omega)⟩
  have hg : m.cells.getD m.ptr 0 = v := by
    rw [List.getD_eq_getElem?_getD, hv]
    rfl
  rcases sym_cases c with rfl | rfl | rfl | rfl | rfl | rfl | rfl | rfl |
      ⟨e1, e2, e3, e4, e5, e6, e7, e8⟩
  · exact absurd rfl h3
  · simp only [body, refSym, Machine.state, hg]
    simp [hv, hp, hl]
  · simp only [body, refSym, Machine.state, hg]
    simp [hv, hp, hl]
  · have hr : (if (m.ptr : Int) = lastcell N then 0 else toClen ((m.ptr : Int) + 1))
        = (m.ptr + 1) % N := by
      rw [hlc]
      unfold toClen
      by_cases e : m.ptr = N - 1
      · have : m.ptr + 1 = N := by omega
        rw [if_pos (by omega), this, Nat.mod_self]
      · rw [if_neg (by omega), Nat.mod_eq_of_lt (by omega)]
        omega
    simp only [body, refSym, Machine.state]
    simp only [Char.reduceEq, if_false, if_true, ne_eq, not_true_eq_false, hr]
    exact ⟨trivial, Nat.mod_lt _ hN, hl⟩
  · have hr : (if m.ptr = 0 then toClen (lastcell N) else toClen ((m.ptr : Int) - 1))
        = (m.ptr + N - 1) % N := by
      rw [hlc]
      unfold toClen
      by_cases e : m.ptr = 0
      · rw [if_pos e, e, Nat.zero_add, Nat.mod_eq_of_lt (by omega)]
        omega
      · rw [if_neg e]
        have e2 : m.ptr + N - 1 = (m.ptr - 1) + N := by omega
        rw [e2, Nat.add_mod_right, Nat.mod_eq_of_lt (by omega)]
        omega
    simp only [body, refSym, Machine.state]
    simp only [Char.reduceEq, if_false, if_true, ne_eq, not_true_eq_false, hr]
    exact ⟨trivial, Nat.mod_lt _ hN, hl⟩
  · exact absurd rfl h1
  · exact absurd rfl h2
  · simp only [body, refSym, Machine.state, hg]
    simp [hv, hp, hl]
  · simp only [body, refSym, Machine.state]
    simp [hp, hl, *]

/-- A loop entered with a zero cell: the passes over `[` `B` `]` change nothing but the
cursor. -/
theorem steps_skip_loop (pre B post : List Char) (lc : Int) (s : State)
    (hpos : s.pos = pre.length) (hskip : s.loopskip = 0)
    (hcell : s.cells[s.cellptr]? = some 0) (hscan : scanDepth 0 B = some 0)
    (hnl : '\n' ∉ B) :
    steps (pre ++ '[' :: (B ++ ']' :: post)) lc (1 + (B.length + 1)) s =
      some { s with pos := s.pos + (B.length + 2) } := by
  have h0 : (pre ++ '[' :: (B ++ ']' :: post))[s.pos]? = some '[' := by
    have := getElem?_append_add pre ('[' :: (B ++ ']' :: post)) 0
    simpa [hpos] using this
  have hfirst : steps (pre ++ '[' :: (B ++ ']' :: post)) lc 1 s =
      some { s with pos := s.pos + 1, loopskip := 1 } := by
    simp [steps, step, body, h0, hskip, hcell]
  have hB : ∀ i, i < B.length →
      (pre ++ '[' :: (B ++ ']' :: post))[
        ({ s with pos := s.pos + 1, loopskip := 1 } : State).pos + i]? = B[i]? := by
    intro i hi
    have e : pre.length + 1 + i = pre.length + (i + 1) := by omega
    have := getElem?_append_add pre ('[' :: (B ++ ']' :: post)) (i + 1)
    simp only [hpos, e, this]
    simp [List.getElem?_append_left, hi]
  have hbody := steps_skip_scan (pre ++ '[' :: (B ++ ']' :: post)) lc B 0 0 0
    { s with pos := s.pos + 1, loopskip := 1 } hscan hnl hB (by simp)
  have hlast : (pre ++ '[' :: (B ++ ']' :: post))[s.pos + 1 + B.length]? = some ']' := by
    have e : s.pos + 1 + B.length = pre.length + (B.length + 1) := by omega
    have := getElem?_append_add pre ('[' :: (B ++ ']' :: post)) (B.length + 1)
    have h2 := getElem?_append_add B (']' :: post) 0
    rw [e, this]
    simpa using h2
  rw [steps_add, hfirst, Option.some_bind]
  refine steps_succ_last _ lc B.length _ _ _ hbody ?_
  rw [step_skip _ lc _ ']' hlast (by decide) (by simp)]
  simp [hskip, Nat.add_assoc]
  omega

/-- `[` read with a nonzero cell: the position after it is pushed. -/
theorem step_open_enter (is : List Char) (lc : Int) (m : Machine) (p v : Nat) (L : List Nat)
    (hc : is[p]? = some '[') (hv : m.cells[m.ptr]? = some v) (h0 : v ≠ 0) :
    step is lc (m.state p L) = Step.next (m.state (p + 1) (L ++ [p + 1])) := by
  simp [step, body, Machine.state, hc, hv, h0]

/-- `]` read with a nonzero cell: the cursor goes back to the top entry. -/
theorem step_close_again (is : List Char) (lc : Int) (m : Machine) (p q v : Nat)
    (L : List Nat) (hc : is[p]? = some ']') (hv : m.cells[m.ptr]? = some v) (h0 : v ≠ 0) :
    step is lc (m.state p (L ++ [q])) = Step.next (m.state q (L ++ [q])) := by
  simp [step, body, Machine.state, hc, hv, h0]

/-- `]` read with a zero cell: the top entry is popped. -/
theorem step_close_exit (is : List Char) (lc : Int) (m : Machine) (p q : Nat)
    (L : List Nat) (hc : is[p]? = some ']') (hv : m.cells[m.ptr]? = some 0) :
    step is lc (m.state p (L ++ [q])) = Step.next (m.state (p + 1) L) := by
  simp [step, body, Machine.state, hc, hv]

/-- The simulation behind C17: where the reference execution of a tree ends, the passes
of `bfck` over the text of the tree end, with the same tape, pointer and output, the
cursor after the text and the loop stack as before. -/
theorem refExec_steps (N : Nat) (hN : 0 < N) (hmax : N ≤ 65536) (f : Nat) :
    ∀ (T : Prog) (m m' : Machine) (is pre post : List Char) (L : List Nat),
      T.plain = true → refExec N f T m = some m' → is = pre ++ (T.text ++ post) →
      m.ptr < N → m.cells.length = N →
      ∃ k, steps is (lastcell N) k (m.state pre.length L)
          = some (m'.state (pre.length + T.text.length) L) ∧
        m'.ptr < N ∧ m'.cells.length = N := by
  induction f with
  | zero => intro T m m' is pre post L _ h; simp [refExec] at h
  | succ f ih =>
    intro T m m' is pre post L hplain h his hp hl
    obtain ⟨v, hv⟩ : ∃ v, m.cells[m.ptr]? = some v :=
      ⟨_, List.getElem?_eq_getElem (by omega)⟩
    have hg : m.cells.getD m.ptr 0 = v := by
      rw [List.getD_eq_getElem?_getD, hv]
      rfl
    cases T with
    | done =>
      simp only [refExec, Option.some.injEq] at h
      subst h
      exact ⟨0, by simp [steps, Prog.text], hp, hl⟩
    | sym c rest =>
      simp only [Prog.plain, Bool.and_eq_true, bne_iff_ne, ne_eq] at hplain
      obtain ⟨⟨⟨h1, h2⟩, h3⟩, h4⟩ := hplain
      simp only [refExec] at h
      obtain ⟨hb, hp', hl'⟩ := body_plain N hN hmax c m (pre.length + 1) L h1 h2 h3 hp hl
      have hc : is[pre.length]? = some c := by
        have := getElem?_append_add pre (Prog.text (Prog.sym c rest) ++ post) 0
        rw [his]
        simpa [Prog.text] using this
      have hstep : step is (lastcell N) (m.state pre.length L)
          = Step.next ((refSym N c m).state (pre.length + 1) L) := by
        unfold step
        simp only [Machine.state, hc]
        exact hb
      obtain ⟨k, hk, hp2, hl2⟩ := ih rest (refSym N c m) m' is (pre ++ [c]) post L h4 h
        (by rw [his]; simp [Prog.text]) hp' hl'
      refine ⟨k + 1, ?_, hp2, hl2⟩
      simp only [steps, hstep]
      rw [List.length_append, List.length_singleton] at hk
      rw [hk]
      simp [Prog.text, Nat.add_assoc, Nat.add_comm 1]
    | loop b rest =>
      simp only [Prog.plain, Bool.and_eq_true] at hplain
      obtain ⟨hpb, hpr⟩ := hplain
      have hopen : is[pre.length]? = some '[' := by
        have := getElem?_append_add pre (Prog.text (Prog.loop b rest) ++ post) 0
        rw [his]
        simpa [Prog.text] using this
      have hclose : is[pre.length + 1 + b.text.length]? = some ']' := by
        have e : pre.length + 1 + b.text.length = pre.length + (b.text.length + 1) := by omega
        have := getElem?_append_add pre (Prog.text (Prog.loop b rest) ++ post)
          (b.text.length + 1)
        have h2 := getElem?_append_add b.text (']' :: (rest.text ++ post)) 0
        rw [his, e, this]
        simpa [Prog.text] using h2
      have hrest_stream : is = (pre ++ '[' :: (b.text ++ [']'])) ++ (rest.text ++ post) := by
        rw [his]
        simp [Prog.text]
      have hrest_len : (pre ++ '[' :: (b.text ++ [']'])).length
          = pre.length + 1 + b.text.length + 1 := by
        simp
        omega
      have hfinal_len : (pre ++ '[' :: (b.text ++ [']'])).length + rest.text.length
          = pre.length + (Prog.text (Prog.loop b rest)).length := by
        simp [Prog.text]
        omega
      rw [refExec] at h
      by_cases h0 : v = 0
      · -- the loop is skipped
        rw [hg, if_neg (by simpa using h0)] at h
        subst h0
        obtain ⟨hscan, hnl⟩ := text_scan b hpb
        have hskip := steps_skip_loop pre b.text (rest.text ++ post) (lastcell N)
          (m.state pre.length L) rfl rfl hv (hscan 0) hnl
        have his2 : is = pre ++ '[' :: (b.text ++ ']' :: (rest.text ++ post)) := by
          rw [his]
          simp [Prog.text]
        rw [← his2] at hskip
        obtain ⟨k, hk, hp2, hl2⟩ := ih rest m m' is _ post L hpr h hrest_stream hp hl
        refine ⟨1 + (b.text.length + 1) + k, ?_, hp2, hl2⟩
        rw [steps_add, hskip, Option.some_bind]
        rw [hfinal_len, hrest_len] at hk
        rw [← hk]
        congr 1
        simp only [Machine.state]
        congr 1
        omega
      · -- the loop is entered
        rw [hg, if_pos h0] at h
        cases hb : refExec N f b m with
        | none => rw [hb] at h; simp at h
        | some m1 =>
          rw [hb] at h
          simp only [Option.some_bind] at h
          have hstep1 := step_open_enter is (lastcell N) m pre.length v L hopen hv h0
          obtain ⟨kb, hkb, hp1, hl1⟩ := ih b m m1 is (pre ++ ['[']) (']' :: (rest.text ++ post))
            (L ++ [pre.length + 1]) hpb hb (by rw [his]; simp [Prog.text]) hp hl
          rw [List.length_append, List.length_singleton] at hkb
          obtain ⟨v1, hv1⟩ : ∃ v1, m1.cells[m1.ptr]? = some v1 :=
            ⟨_, List.getElem?_eq_getElem (by omega)⟩
          have hg1 : m1.cells.getD m1.ptr 0 = v1 := by
            rw [List.getD_eq_getElem?_getD, hv1]
            rfl
          by_cases h1 : v1 = 0
          · -- the body ends with a zero cell: the loop is left
            subst h1
            have hstep2 := step_close_exit is (lastcell N) m1 (pre.length + 1 + b.text.length)
              (pre.length + 1) L hclose hv1
            cases f with
            | zero => simp [refExec] at h
            | succ f' =>
              rw [refExec, hg1, if_neg (by simp)] at h
              have h' := refExec_mono N f' rest m1 m' h
              obtain ⟨k, hk, hp2, hl2⟩ := ih rest m1 m' is _ post L hpr h' hrest_stream
                hp1 hl1
              refine ⟨1 + (kb + (1 + k)), ?_, hp2, hl2⟩
              rw [steps_add]
              simp only [steps, hstep1, Option.some_bind]
              rw [steps_add, hkb, Option.some_bind, steps_add]
              simp only [steps, hstep2, Option.some_bind]
              rw [hfinal_len, hrest_len] at hk
              exact hk
          · -- the body ends with a nonzero cell: the loop goes on
            have hstep2 := step_close_again is (lastcell N) m1 (pre.length + 1 + b.text.length)
              (pre.length + 1) v1 L hclose hv1 h1
            obtain ⟨kl, hkl, hp2, hl2⟩ := ih (Prog.loop b rest) m1 m' is pre post L
              (by simp [Prog.plain, hpb, hpr]) h his hp1 hl1
            have hstep1' := step_open_enter is (lastcell N) m1 pre.length v1 L hopen hv1 h1
            cases kl with
            | zero =>
              exfalso
              simp only [steps, Option.some.injEq] at hkl
              have := congrArg State.pos hkl
              simp [Machine.state, Prog.text] at this
            | succ kl =>
              simp only [steps, hstep1'] at hkl
              refine ⟨1 + (kb + (1 + kl)), ?_, hp2, hl2⟩
              rw [steps_add]
              simp only [steps, hstep1, Option.some_bind]
              rw [steps_add, hkb, Option.some_bind, steps_add]
              simp only [steps, hstep2, Option.some_bind]
              exact hkl

theorem scanDepth_shift (B : List Char) (k : Nat) :
    ∀ d e, scanDepth d B = some e → scanDepth (d + k) B = some (e + k) := by
  induction B with
  | nil => intro d e h; simp only [scanDepth, Option.some.injEq] at h ⊢; omega
  | cons c cs ih =>
    intro d e h
    simp only [scanDepth] at h ⊢
    by_cases h1 : c = '['
    · rw [if_pos h1] at h ⊢
      have := ih (d + 1) e h
      rw [Nat.add_right_comm] at this
      exact this
    · rw [if_neg h1] at h ⊢
      by_cases h2 : c = ']'
      · rw [if_pos h2] at h ⊢
        by_cases hd : d = 0
        · rw [if_pos hd] at h; simp at h
        · rw [if_neg hd] at h
          rw [if_neg (by omega)]
          have := ih (d - 1) e h
          have e2 : d + k - 1 = d - 1 + k := by omega
          rw [e2]
          exact this
      · rw [if_neg h2] at h ⊢
        exact ih d e h

/-- In a text that closes one loop more than it opens, the `]` that closes it splits the
text into a balanced body and the rest. -/
theorem split_at_close (n : Nat) :
    ∀ (cs : List Char) (d : Nat), cs.length ≤ n → scanDepth (d + 1) cs = some 0 →
      ∃ B R, cs = B ++ ']' :: R ∧ scanDepth 0 B = some 0 ∧ scanDepth d R = some 0 := by
  induction n with
  | zero =>
    intro cs d hlen h
    have : cs = [] := List.length_eq_zero.mp (by omega)
    subst this
    simp [scanDepth] at h
  | succ n ih =>
    intro cs d hlen h
    cases cs with
    | nil => simp [scanDepth] at h
    | cons c cs' =>
      simp only [List.length_cons] at hlen
      simp only [scanDepth] at h
      by_cases h1 : c = '['
      · subst h1
        rw [if_pos rfl] at h
        obtain ⟨B1, R1, e1, hB1, hR1⟩ := ih cs' (d + 1) (by omega) h
        have hR1len : R1.length ≤ n := by
          have := congrArg List.length e1
          simp at this
          omega
        obtain ⟨B2, R2, e2, hB2, hR2⟩ := ih R1 d hR1len hR1
        refine ⟨'[' :: (B1 ++ ']' :: B2), R2, by rw [e1, e2]; simp, ?_, hR2⟩
        simp only [scanDepth, if_true]
        rw [scanDepth_append, scanDepth_shift B1 1 0 0 hB1]
        simp only [Option.some_bind, scanDepth]
        have h12 : ¬ (']' = '[') := by decide
        simp only [if_neg h12, if_true]
        exact hB2
      · rw [if_neg h1] at h
        by_cases h2 : c = ']'
        · subst h2
          rw [if_pos rfl, if_neg (Nat.succ_ne_zero d), Nat.add_sub_cancel] at h
          exact ⟨[], cs', rfl, rfl, h⟩
        · rw [if_neg h2] at h
          obtain ⟨B, R, e, hB, hR⟩ := ih cs' d (by omega) h
          refine ⟨c :: B, R, by rw [e]; rfl, ?_, hR⟩
          simp only [scanDepth, if_neg h1, if_neg h2]
          exact hB

/-- Every bracket-balanced, newline-free text is the text of a plain program tree. -/
theorem exists_tree (n : Nat) :
    ∀ P : List Char, P.length ≤ n → scanDepth 0 P = some 0 → '\n' ∉ P →
      ∃ T : Prog, T.plain = true ∧ T.text = P := by
  induction n with
  | zero =>
    intro P hlen _ _
    have : P = [] := List.length_eq_zero.mp (by omega)
    subst this
    exact ⟨Prog.done, rfl, rfl⟩
  | succ n ih =>
    intro P hlen h hnl
    cases P with
    | nil => exact ⟨Prog.done, rfl, rfl⟩
    | cons c cs =>
      simp only [List.length_cons] at hlen
      have hc : c ≠ '\n' := fun e => hnl (by simp [e])
      have hcs : '\n' ∉ cs := fun e => hnl (by simp [e])
      simp only [scanDepth] at h
      by_cases h1 : c = '['
      · subst h1
        rw [if_pos rfl] at h
        obtain ⟨B, R, e, hB, hR⟩ := split_at_close cs.length cs 0 (le_refl _) h
        have hlenBR : B.length + R.length + 1 = cs.length := by
          have := congrArg List.length e
          simp at this
          omega
        have hnlB : '\n' ∉ B := fun hm => hcs (by rw [e]; simp [hm])
        have hnlR : '\n' ∉ R := fun hm => hcs (by rw [e]; simp [hm])
        obtain ⟨Tb, hTb1, hTb2⟩ := ih B (by omega) hB hnlB
        obtain ⟨Tr, hTr1, hTr2⟩ := ih R (by omega) hR hnlR
        refine ⟨Prog.loop Tb Tr, by simp [Prog.plain, hTb1, hTr1], ?_⟩
        simp only [Prog.text, hTb2, hTr2, e]
      · rw [if_neg h1] at h
        by_cases h2 : c = ']'
        · rw [if_pos h2] at h
          simp at h
        · rw [if_neg h2] at h
          obtain ⟨T, hT1, hT2⟩ := ih cs (by omega) h hcs
          refine ⟨Prog.sym c T, by simp [Prog.plain, h1, h2, hc, hT1], ?_⟩
          simp only [Prog.text, hT2]

/-- C17. `bfck` agrees with the structured semantics on well-formed programs. For every
tape size `N` with `1 ≤ N ≤ 65536` and every bracket-balanced, newline-free program `P`:
`P` is the text of a program tree; and for every such tree, whenever the reference
semantics (a loop runs its body while the current cell is not 0, cells modulo 256,
pointer modulo `N`, `.` appends the current cell), started on the all-zero tape with
pointer 0, ends in a state `m`, the call of `bfck` on `P` returns at end of input with
the output, the tape and the pointer of `m` (and an empty loop stack). -/
theorem bfck_refines_reference (N : Nat) (hN : 1 ≤ N) (hmax : N ≤ 65536) (P : List Char)
    (hbal : balanced P = true) (hnl : '\n' ∉ P) :
    (∃ T : Prog, T.plain = true ∧ T.text = P) ∧
    (∀ T : Prog, T.plain = true → T.text = P →
      ∀ f m, refExec N f T (Machine.fresh N) = some m →
        ∃ n, bfck n P N 0 = some (Result.eof (m.state P.length []))) := by
  have hscan : scanDepth 0 P = some 0 := by simpa [balanced] using hbal
  refine ⟨exists_tree P.length P (le_refl _) hscan hnl, ?_⟩
  intro T hT hP f m h
  obtain ⟨k, hk, -, -⟩ := refExec_steps N hN hmax f T (Machine.fresh N) m P [] [] [] hT h
    (by simp [hP]) (by simpa [Machine.fresh] using hN) (by simp [Machine.fresh])
  refine ⟨k + 1, ?_⟩
  unfold bfck
  have hinit : initState N 0 = (Machine.fresh N).state 0 [] := rfl
  rw [hinit]
  simp only [List.length_nil, Nat.zero_add, hP] at hk
  rw [run_of_steps _ _ k 1 _ _ hk]
  simp [run, step, Machine.state]

/-- C17 on the doubling program with two cells: the reference semantics of its tree ends
with output 4, tape 0, 4 and pointer 1, and so does the call of `bfck`. -/
theorem bfck_refines_reference_witness :
    refExec 2 20
        (Prog.sym '+' (Prog.sym '+' (Prog.loop
          (Prog.sym '>' (Prog.sym '+' (Prog.sym '+' (Prog.sym '<' (Prog.sym '-' Prog.done)))))
          (Prog.sym '>' (Prog.sym '.' Prog.done)))))
        (Machine.fresh 2) = some { cells := [0, 4], ptr := 1, out := [4] } ∧
    ∃ n, bfck n "++[>++<-]>.".toList 2 0 =
      some (Result.eof (({ cells := [0, 4], ptr := 1, out := [4] } : Machine).state
        "++[>++<-]>.".toList.length [])) :=
  ⟨by decide,
   (bfck_refines_reference 2 (by decide) (by decide) "++[>++<-]>.".toList (by decide)
      (by decide)).2
     (Prog.sym '+' (Prog.sym '+' (Prog.loop
          (Prog.sym '>' (Prog.sym '+' (Prog.sym '+' (Prog.sym '<' (Prog.sym '-' Prog.done)))))
          (Prog.sym '>' (Prog.sym '.' Prog.done)))))
     (by decide) (by decide) 20 _ (by decide)⟩

/-! ## C18: no access to an empty loop stack -/

/-- C18. The empty-stack access is unreachable on lines without an unmatched `]`. For
every newline-free line `P` (read up to the end of input or up to a newline) in which
every prefix contains at least as many `[` as `]`, also when some `[` are never closed,
and every positive tape size: no pass of the call reads `]` in normal mode with an empty
loop stack, so `loops.back()` and `loops.pop_back()` are never executed on an empty
vector; and, the pointer staying inside the tape, no call ends in undefined behaviour. -/
theorem no_empty_stack_access (P tail : List Char) (N : Nat) (hN : 0 < N)
    (hpre : ∀ k, k ≤ P.length → (P.take k).count ']' ≤ (P.take k).count '[')
    (ht : tail = [] ∨ ∃ more, tail = '\n' :: more) :
    (∀ n s, steps (P ++ tail) (lastcell N) n (initState N 0) = some s →
      ¬ ((P ++ tail)[s.pos]? = some ']' ∧ s.loopskip = 0 ∧ s.loops = [])) ∧
    (∀ n, bfck n (P ++ tail) N 0 ≠ some Result.undef) := by
  obtain ⟨d, hd⟩ := scanDepth_of_counts P 0 (fun k => by
    rcases Nat.le_total k P.length with h | h
    · simpa using hpre k h
    · have := hpre P.length (le_refl _)
      rw [List.take_of_length_le h]
      rw [List.take_length] at this
      simpa using this)
  have hinv : ∀ n s, steps (P ++ tail) (lastcell N) n (initState N 0) = some s →
      stackInv P s := fun n s h =>
    steps_invariant _ _ (stackInv P)
      (fun s t hs hst => step_stackInv P tail _ d hd ht s t hs hst) n _ s
      (initState_stackInv P N) h
  have hfirst : ∀ n s, steps (P ++ tail) (lastcell N) n (initState N 0) = some s →
      ¬ ((P ++ tail)[s.pos]? = some ']' ∧ s.loopskip = 0 ∧ s.loops = []) := by
    intro n s h ⟨hc, hk, hl⟩
    obtain ⟨h1, h2, h3⟩ := hinv n s h
    have hlt : s.pos < P.length := by
      rcases Nat.lt_or_ge s.pos P.length with hlt | hge
      · exact hlt
      · exfalso
        have e : s.pos = P.length + 0 := by omega
        rw [e, getElem?_append_add] at hc
        rcases ht with rfl | ⟨more, rfl⟩
        · simp at hc
        · simp at hc
    rw [List.getElem?_append_left hlt] at hc
    have hne := (enclosing_depth P d hd s.pos h1).2 hlt hc
    rw [hk, Nat.sub_zero, List.take_length] at h3
    exact hne (h3 ▸ hl)
  refine ⟨hfirst, ?_⟩
  intro n hr
  obtain ⟨k, s, hk, hlast⟩ := run_last_step _ _ n _ _ hr
  rcases hlast with ⟨st', -, h2⟩ | ⟨st', -, h2⟩ | ⟨h1, -⟩
  · simp at h2
  · simp at h2
  · have htape := steps_invariant (P ++ tail) (lastcell N)
      (fun s => s.cellptr < N ∧ s.cellptr < 65536 ∧ s.cells.length = N)
      (fun s t hs hst => by
        obtain ⟨c, -, hb⟩ := step_next_body _ _ s t hst
        exact body_tape_inv N hN c _ t hb hs)
      k (initState N 0) s ⟨hN, by norm_num [initState], by simp [initState]⟩ hk
    unfold step at h1
    cases hc : (P ++ tail)[s.pos]? with
    | none => rw [hc] at h1; simp at h1
    | some c =>
      rw [hc] at h1
      obtain ⟨h0, hcase⟩ := body_undef _ c _ h1
      simp only at h0 hcase
      rcases hcase with hnone | ⟨rfl, hl⟩
      · rw [List.getElem?_eq_getElem (by omega)] at hnone
        simp at hnone
      · exact hfirst k s hk ⟨hc, h0, hl⟩

/-- C18 on the line `+[[-]`, whose first `[` is never closed, on a one-cell tape: the
call returns at end of input, with the unclosed loop still on the stack. -/
theorem no_empty_stack_access_witness :
    bfck 7 "+[[-]".toList 1 0 =
      some (Result.eof { pos := 5, cells := [0], cellptr := 0, loops := [2], loopskip := 0,
                         out := [] }) ∧
    bfck 7 ("+[[-]".toList ++ []) 1 0 ≠ some Result.undef :=
  ⟨by decide,
   (no_empty_stack_access "+[[-]".toList [] 1 (by decide) (by decide) (Or.inl rfl)).2 7⟩

end Brainfuck

namespace BitPositions

/-! ## C19: the bit-positions program -/

/-- An integer that an `int` can hold is extracted unchanged. -/
theorem extract_val (x : Int) (h1 : -2147483648 ≤ x) (h2 : x ≤ 2147483647) :
    ∃ a : CInt, extract x = some a ∧ a.val = x := by
  unfold extract
  rw [dif_pos ⟨h1, h2⟩]
  exact ⟨_, rfl, rfl⟩

/-- For a non-negative `int` `n` the value `n >> (p - 1) & 1` is 1 or 0 as bit `p - 1`
of `n` is set or not. -/
theorem bitAt_eq_testBit (a q : CInt) (n : Nat) (ha : a.val = (n : Int))
    (h1 : 1 ≤ q.val) (h2 : q.val ≤ 31) :
    bitAt a q = some (if n.testBit (q.val - 1).toNat then 1 else 0) := by
  have hp : 0 ≤ q.val - 1 ∧ q.val - 1 < 32 := by omega
  unfold bitAt
  rw [if_pos hp, ha]
  congr 1
  have e1 : ((n : Int) >>> (q.val - 1).toNat) = ((n >>> (q.val - 1).toNat : Nat) : Int) :=
    rfl
  have e2 : Int.land ((n >>> (q.val - 1).toNat : Nat) : Int) 1
      = (((n >>> (q.val - 1).toNat) &&& 1 : Nat) : Int) := rfl
  rw [e1, e2, Nat.and_one_is_mod]
  unfold Nat.testBit
  rw [Nat.one_and_eq_mod_two]
  generalize n >>> (q.val - 1).toNat = x
  rcases Nat.mod_two_eq_zero_or_one x with h | h <;> rw [h] <;> rfl

/-- C19 fails on the record `2147483648, 1, 2`: the number is non-negative and its bits
0 and 1 are equal (both 0), but it does not fit the `int n`, so the extraction of line 53
fails and the program prints nothing, neither `true` nor `false`. -/
theorem bit_positions_counterexample :
    (0 : Int) ≤ 2147483648 ∧
    Nat.testBit 2147483648 0 = Nat.testBit 2147483648 1 ∧
    bitPositions 2147483648 1 2 = Answer.nothing ∧
    bitPositions 2147483648 1 2 ≠ Answer.printed "true" := by
  decide

/-- C19, amended. The bit-positions program compares two bits of an `int`. For every
record `n, p1, p2` with `0 ≤ n ≤ 2147483647` (so that `n` fits the 32-bit `int` it is
read into) and `1 ≤ p1, p2 ≤ 31` it prints `true` exactly when bit `p1 - 1` and bit
`p2 - 1` of `n` (positions counted from the least significant bit, which is position 1)
are equal and `false` otherwise, and it prints the same word when `p1` and `p2` are
swapped. -/
theorem bit_positions_compares_bits (n p1 p2 : Int) (hn : 0 ≤ n ∧ n ≤ 2147483647)
    (h1 : 1 ≤ p1 ∧ p1 ≤ 31) (h2 : 1 ≤ p2 ∧ p2 ≤ 31) :
    bitPositions n p1 p2 =
      Answer.printed (if n.toNat.testBit (p1 - 1).toNat = n.toNat.testBit (p2 - 1).toNat
                      then "true" else "false") ∧
    bitPositions n p1 p2 = bitPositions n p2 p1 := by
  obtain ⟨m, rfl⟩ := Int.eq_ofNat_of_zero_le hn.1
  obtain ⟨a, ha, hav⟩ := extract_val (m : Int) (by omega) hn.2
  have main : ∀ q1 q2 : Int, 1 ≤ q1 ∧ q1 ≤ 31 → 1 ≤ q2 ∧ q2 ≤ 31 →
      bitPositions (m : Int) q1 q2 =
        Answer.printed (if m.testBit (q1 - 1).toNat = m.testBit (q2 - 1).toNat
                        then "true" else "false") := by
    intro q1 q2 hq1 hq2
    obtain ⟨b1, hb1, hb1v⟩ := extract_val q1 (by omega) (by omega)
    obtain ⟨b2, hb2, hb2v⟩ := extract_val q2 (by omega) (by omega)
    unfold bitPositions
    rw [ha, hb1, hb2]
    simp only
    rw [bitAt_eq_testBit a b1 m hav (by omega) (by omega),
      bitAt_eq_testBit a b2 m hav (by omega) (by omega), hb1v, hb2v]
    cases m.testBit (q1 - 1).toNat <;> cases m.testBit (q2 - 1).toNat <;> decide
  constructor
  · simpa using main p1 p2 h1 h2
  · rw [main p1 p2 h1 h2, main p2 p1 h2 h1]
    congr 1
    by_cases h : m.testBit (p1 - 1).toNat = m.testBit (p2 - 1).toNat
    · rw [if_pos h, if_pos h.symm]
    · rw [if_neg h, if_neg (fun e => h e.symm)]

/-- C19, amended, on the records `86, 2, 3` (bits 1 and 1), `125, 1, 2` (bits 1 and 0)
and on the largest `int`, `2147483647, 31, 1`. -/
theorem bit_positions_compares_bits_witness :
    bitPositions 86 2 3 = Answer.printed "true" ∧
    bitPositions 125 1 2 = Answer.printed "false" ∧
    bitPositions 2147483647 31 1 = Answer.printed "true" ∧
    bitPositions 86 2 3 = bitPositions 86 3 2 :=
  ⟨(bit_positions_compares_bits 86 2 3 (by decide) (by decide) (by decide)).1,
   (bit_positions_compares_bits 125 1 2 (by decide) (by decide) (by decide)).1,
   (bit_positions_compares_bits 2147483647 31 1 (by decide) (by decide) (by decide)).1,
   (bit_positions_compares_bits 86 2 3 (by decide) (by decide) (by decide)).2⟩

end BitPositions
